import Mathlib

/-!
Verification of the getconf configuration library (jllopis/getconf).

This file gives a shallow embedding, in Lean 4, of the core of the getconf
library: the type-coercion function `getTypedValue`, the tag/schema parser
(`parseTag`, `parseTags`, `parseStruct`), the option registry and its write
path (`setOption`, `Set`), the environment stage (`getEnv`, `loadFromEnv`),
the flag stage (`loadFromFlags` via the set of explicitly supplied flags),
the remote-key translation (`getKVKey`, `getGCKey`) and one step of each
watch loop (`WatchWithFunc`, `WatchTreeWithFunc`).

Go strings are modelled as `List Char` (the sources only manipulate ASCII
data).  Go's `interface{}` values produced by `getTypedValue` are modelled
by the tagged union `GoValue`; note that the failure branches of
`getTypedValue` in the source are `return 0`, an untyped constant that Go
boxes as `int`, which the embedding renders as `GoValue.vInt 0`.

Standard-library collaborators (`strconv`, `strings`, `time`) are modelled
from their documented behaviour: `strconv.ParseInt`/`ParseUint` with
explicit base 10 (no underscores, platform `int` taken as 64-bit),
`strconv.ParseBool` with its exact token set, `strconv.ParseFloat` for the
decimal / inf / nan forms (hexadecimal floats and digit-group underscores
are outside the modelled fragment, and rounding at the exact
overflow/underflow boundary is approximated by exact rational comparison),
and `time.Parse` by a layout tokenizer plus matcher covering every layout
string listed in `StringToDate`.
-/

namespace Getconf

/-- Go strings, modelled as lists of characters. -/
abbrev Str := List Char

/-! ## strings package helpers -/

/-- Whitespace test used by `strings.TrimSpace` (`unicode.IsSpace`),
restricted to the Latin-1 range that can occur in the repository's data. -/
def isSpaceGo (c : Char) : Bool :=
  c = ' ' || c = '\t' || c = '\n' || c = '\x0b' || c = '\x0c' || c = '\r'

/-- Model of dropping leading whitespace (left half of `strings.TrimSpace`). -/
def trimLeftGo : Str → Str
  | [] => []
  | c :: rest => if isSpaceGo c then trimLeftGo rest else c :: rest

/-- Model of dropping trailing whitespace (right half of `strings.TrimSpace`). -/
def trimRightGo : Str → Str
  | [] => []
  | c :: rest =>
    match trimRightGo rest with
    | [] => if isSpaceGo c then [] else [c]
    | r => c :: r

/-- Model of `strings.TrimSpace`. -/
def trimSpaceGo (s : Str) : Str := trimLeftGo (trimRightGo s)

/-- Model of `strings.ToLower` (ASCII range, all the repository's names are ASCII). -/
def toLowerGo (s : Str) : Str := s.map Char.toLower

/-- Model of `strings.ToUpper` (ASCII range). -/
def toUpperGo (s : Str) : Str := s.map Char.toUpper

/-- Test whether `pat` occurs at the beginning of `s` (model of `strings.HasPrefix`). -/
def startsWith : Str → Str → Bool
  | _, [] => true
  | [], _ :: _ => false
  | c :: cs, p :: ps => c == p && startsWith cs ps

/-- Model of `strings.HasSuffix`. -/
def hasSuffixGo (s suf : Str) : Bool := startsWith s.reverse suf.reverse

/-- Model of `strings.TrimPrefix`. -/
def trimPrefixGo (s pat : Str) : Str :=
  if startsWith s pat then s.drop pat.length else s

/-- Fuel-indexed body of `replaceAllGo`.  Each recursive call consumes at
least one input character, so fuel equal to the input length makes the
recursion structural (total and kernel-reducible); the zero-fuel branch is
unreachable from `replaceAllGo`. -/
def replaceAllF : Nat → Str → Str → Str → Str
  | _, s, [], new => new ++ s.flatMap (fun c => c :: new)
  | _, [], _ :: _, _ => []
  | 0, _ :: _, _ :: _, _ => []
  | fuel + 1, c :: rest, o :: os, new =>
    if startsWith (c :: rest) (o :: os) then
      new ++ replaceAllF fuel ((c :: rest).drop (o :: os).length) (o :: os) new
    else
      c :: replaceAllF fuel rest (o :: os) new

/-- Model of `strings.Replace(s, old, new, -1)`: replaces all non-overlapping
occurrences of `old`, scanning left to right.  With empty `old`, Go inserts
`new` before every character and at the end. -/
def replaceAllGo (s old new : Str) : Str := replaceAllF s.length s old new

/-- Fuel-indexed helper for `splitAfterGo`: scans the input, accumulating
the current segment in reverse, and splits just after each occurrence of
`sep`.  Fuel equal to the input length suffices; the zero-fuel branch is
unreachable from `splitAfterGo`. -/
def splitAfterAuxF (sep : Str) : Nat → Str → Str → List Str
  | _, [], acc => [acc.reverse]
  | 0, _ :: _, _ => []
  | fuel + 1, c :: rest, acc =>
    if !sep.isEmpty && startsWith (c :: rest) sep then
      (acc.reverse ++ sep) :: splitAfterAuxF sep fuel ((c :: rest).drop sep.length) []
    else
      splitAfterAuxF sep fuel rest (c :: acc)

/-- Model of `strings.SplitAfter(s, sep)`.  For empty `sep` Go explodes the
string into single characters. -/
def splitAfterGo (s sep : Str) : List Str :=
  match sep with
  | [] => s.map (fun c => [c])
  | _ :: _ => splitAfterAuxF sep s.length s []

/-- Whether `pat` occurs contiguously anywhere in `s` (used to state when
`strings.SplitAfter` finds exactly one separator occurrence). -/
def containsSubGo : Str → Str → Bool
  | [], pat => pat.isEmpty
  | c :: rest, pat => startsWith (c :: rest) pat || containsSubGo rest pat

/-- Index of the first occurrence of character `c` (model of `strings.Index`
with a one-character pattern, the only use in the tag parser). -/
def indexOfCharGo (s : Str) (c : Char) : Option Nat := s.findIdx? (· == c)

/-- Model of `strings.Split(s, sep)` for a one-character separator (the tag
parser only splits on a comma). -/
def splitOnCharGo (s : Str) (c : Char) : List Str := s.splitOn c

/-! ## Data model: kinds and dynamic values -/

/-- The `reflect.Kind` values distinguished by `getTypedValue`.  `structK`
stands for `reflect.Struct`, which in this library always means `time.Time`;
`otherK` stands for every kind that falls through to the final `return nil`. -/
inductive GoKind where
  | intK | int8K | int16K | int32K | int64K
  | uintK | uint8K | uint16K | uint32K | uint64K
  | float32K | float64K | boolK | stringK | structK | otherK
deriving DecidableEq, Repr

/-- Result of `strconv.ParseFloat`: a finite value (kept as an exact
rational; binary rounding is not modelled), an infinity, or NaN. -/
inductive GoFloat where
  | finite (q : ℚ)
  | inf (neg : Bool)
  | nan
deriving DecidableEq, Repr

/-- Broken-down time as produced by the `time.Parse` model: calendar fields
plus a fixed zone offset in seconds (0 when the input carried no offset,
matching Go's UTC default). -/
structure CivilTime where
  year : Int
  month : Nat
  day : Nat
  hour : Nat
  minute : Nat
  second : Nat
  nsec : Nat
  offSec : Int
deriving DecidableEq, Repr

/-- Model of a `time.Time` value as it is produced inside `getTypedValue`:
either a broken-down time from `time.Parse` or an epoch-seconds value from
`time.Unix`. -/
inductive GoTimeRep where
  | civil (t : CivilTime)
  | unix (sec : Int)
deriving DecidableEq, Repr

/-- Broken-down representation of Go's zero `time.Time`
(January 1, year 1, 00:00:00 UTC). -/
def zeroCivil : CivilTime := ⟨1, 1, 1, 0, 0, 0, 0, 0⟩

/-- The zero `time.Time` in the `GoTimeRep` model. -/
def zeroTimeRep : GoTimeRep := .civil zeroCivil

/-- Epoch seconds of the zero `time.Time` (what `time.Unix` would have to
receive to denote the zero instant). -/
def zeroInstantUnixSec : Int := -62135596800

/-- Model of `time.Time.IsZero` on the two representations. -/
def isZeroTimeRep : GoTimeRep → Bool
  | .civil t => t == zeroCivil
  | .unix s => s == zeroInstantUnixSec

/-- A Go `interface{}` value as stored in an Option by this library.  The
constructors carry the dynamic type Go would box.  `vNil` is the nil
interface (`return nil` in `getTypedValue`, or an Option whose value was
never set). -/
inductive GoValue where
  | vInt (i : Int) | vInt8 (i : Int) | vInt16 (i : Int) | vInt32 (i : Int) | vInt64 (i : Int)
  | vUint (n : Nat) | vUint8 (n : Nat) | vUint16 (n : Nat) | vUint32 (n : Nat) | vUint64 (n : Nat)
  | vFloat32 (f : GoFloat) | vFloat64 (f : GoFloat)
  | vBool (b : Bool) | vString (s : Str) | vTime (t : GoTimeRep)
  | vNil
deriving DecidableEq, Repr

/-! ## strconv models -/

/-- Numeric value of a digit string (callers have checked the digits). -/
def digitsToNat (s : Str) : Nat := s.foldl (fun a c => a * 10 + (c.toNat - '0'.toNat)) 0

/-- Model of `strconv.ParseInt(s, 10, bits)` (error collapsed to `none`):
optional sign, one or more decimal digits, value within the two's-complement
range of `bits` bits.  The library calls it with bit sizes 0 (platform
`int`, modelled as 64), 8, 16, 32 and 64. -/
def parseIntGo (s : Str) (bits : Nat) : Option Int :=
  let (neg, ds) : Bool × Str :=
    match s with
    | '+' :: r => (false, r)
    | '-' :: r => (true, r)
    | r => (false, r)
  if ds.isEmpty || !ds.all Char.isDigit then none
  else
    let v : Int := if neg then -(digitsToNat ds : Int) else (digitsToNat ds : Int)
    if v < -(2 ^ (bits - 1) : Int) || v > (2 ^ (bits - 1) : Int) - 1 then none else some v

/-- Model of `strconv.ParseUint(s, 10, bits)`: no sign permitted, one or
more decimal digits, value below `2 ^ bits`. -/
def parseUintGo (s : Str) (bits : Nat) : Option Nat :=
  if s.isEmpty || !s.all Char.isDigit then none
  else
    let v := digitsToNat s
    if v > 2 ^ bits - 1 then none else some v

/-- Model of `strconv.ParseBool`: accepts exactly the documented tokens. -/
def parseBoolGo (s : Str) : Option Bool :=
  if s = "1".toList || s = "t".toList || s = "T".toList
      || s = "true".toList || s = "TRUE".toList || s = "True".toList then some true
  else if s = "0".toList || s = "f".toList || s = "F".toList
      || s = "false".toList || s = "FALSE".toList || s = "False".toList then some false
  else none

/-- Largest finite float32, as an exact rational. -/
def maxFinite32 : ℚ := 2 ^ 128 - 2 ^ 104

/-- Largest finite float64, as an exact rational. -/
def maxFinite64 : ℚ := 2 ^ 1024 - 2 ^ 971

/-- Half of the smallest subnormal float32 (underflow threshold). -/
def minPositive32 : ℚ := 1 / 2 ^ 150

/-- Half of the smallest subnormal float64 (underflow threshold). -/
def minPositive64 : ℚ := 1 / 2 ^ 1075

/-- Decimal-syntax part of `strconv.ParseFloat`: `[sign] digits [. digits]
[(e|E) [sign] digits]`, at least one digit in the mantissa, the whole input
consumed.  Returns the exact rational value. -/
def parseFloatDecGo (s : Str) : Option ℚ :=
  let (neg, r0) : Bool × Str :=
    match s with
    | '+' :: r => (false, r)
    | '-' :: r => (true, r)
    | r => (false, r)
  let ip := r0.takeWhile Char.isDigit
  let r1 := r0.dropWhile Char.isDigit
  let (fp, r2) : Str × Str :=
    match r1 with
    | '.' :: r => (r.takeWhile Char.isDigit, r.dropWhile Char.isDigit)
    | r => ([], r)
  if ip.isEmpty && fp.isEmpty then none
  else
    let mant : ℚ := (digitsToNat ip : ℚ) + (digitsToNat fp : ℚ) / 10 ^ fp.length
    match r2 with
    | [] => some (if neg then -mant else mant)
    | e :: r3 =>
      if e = 'e' || e = 'E' then
        let (eneg, r4) : Bool × Str :=
          match r3 with
          | '+' :: r => (false, r)
          | '-' :: r => (true, r)
          | r => (false, r)
        if r4.isEmpty || !r4.all Char.isDigit || !(r4.dropWhile Char.isDigit).isEmpty then none
        else
          let ex : Int := if eneg then -(digitsToNat r4 : Int) else (digitsToNat r4 : Int)
          let v := mant * (10 : ℚ) ^ ex
          some (if neg then -v else v)
      else none

/-- Model of `strconv.ParseFloat(s, bits)` with the error collapsed to
`none`; `none` covers both syntax errors and out-of-range errors, since the
caller only tests `err == nil`.  Accepts the case-insensitive special forms
`inf`, `infinity` (optionally signed) and `nan`. -/
def parseFloatGo (s : Str) (bits : Nat) : Option GoFloat :=
  let low := toLowerGo s
  if low = "inf".toList || low = "+inf".toList
      || low = "infinity".toList || low = "+infinity".toList then some (.inf false)
  else if low = "-inf".toList || low = "-infinity".toList then some (.inf true)
  else if low = "nan".toList then some .nan
  else
    match parseFloatDecGo s with
    | none => none
    | some q =>
      let maxF := if bits = 32 then maxFinite32 else maxFinite64
      let minP := if bits = 32 then minPositive32 else minPositive64
      if |q| > maxF then none
      else if q ≠ 0 ∧ |q| < minP then none
      else some (.finite q)

/-! ## time.Parse model

Layout strings are tokenized following `time.nextStdChunk` (restricted to
the reference-layout elements that occur in `StringToDate`'s layout list),
then matched against the input following `time.Parse`'s per-element
consumption and range checks. -/

/-- Layout tokens (the `std*` chunk codes of the `time` package). -/
inductive Tok where
  | lit (c : Char)
  | year4 | year2
  | month2 | month1 | monthName | monthNameLong
  | day2 | day1 | dayUnder
  | weekName | weekNameLong
  | hour24 | hour12 | hour12two
  | minute2 | minute1
  | sec2 | sec1
  | pmUpper | pmLower
  | tzAbbr | tzZColon | tzZ | tzColon | tzNum
  | fracOpt (n : Nat) | fracReq (n : Nat)
deriving DecidableEq, Repr

/-- Fuel-indexed tokenizer body; every step consumes at least one layout
character, so fuel equal to the layout length makes the recursion
structural.  The zero-fuel branch is unreachable from `tokenizeLayout`. -/
def tokenizeLayoutF : Nat → Str → List Tok
  | _, [] => []
  | 0, _ :: _ => []
  | fuel + 1, c :: rest =>
    if c = '2' then
      if startsWith rest ("006".toList) then .year4 :: tokenizeLayoutF fuel (rest.drop 3)
      else .day1 :: tokenizeLayoutF fuel rest
    else if c = '1' then
      if startsWith rest ("5".toList) then .hour24 :: tokenizeLayoutF fuel (rest.drop 1)
      else .month1 :: tokenizeLayoutF fuel rest
    else if c = '0' then
      match rest with
      | '1' :: r => .month2 :: tokenizeLayoutF fuel r
      | '2' :: r => .day2 :: tokenizeLayoutF fuel r
      | '3' :: r => .hour12two :: tokenizeLayoutF fuel r
      | '4' :: r => .minute2 :: tokenizeLayoutF fuel r
      | '5' :: r => .sec2 :: tokenizeLayoutF fuel r
      | '6' :: r => .year2 :: tokenizeLayoutF fuel r
      | r => .lit '0' :: tokenizeLayoutF fuel r
    else if c = '3' then .hour12 :: tokenizeLayoutF fuel rest
    else if c = '4' then .minute1 :: tokenizeLayoutF fuel rest
    else if c = '5' then .sec1 :: tokenizeLayoutF fuel rest
    else if c = '_' then
      match rest with
      | '2' :: r => .dayUnder :: tokenizeLayoutF fuel r
      | r => .lit '_' :: tokenizeLayoutF fuel r
    else if c = 'J' then
      if startsWith rest ("anuary".toList) then .monthNameLong :: tokenizeLayoutF fuel (rest.drop 6)
      else if startsWith rest ("an".toList) then .monthName :: tokenizeLayoutF fuel (rest.drop 2)
      else .lit 'J' :: tokenizeLayoutF fuel rest
    else if c = 'M' then
      if startsWith rest ("onday".toList) then .weekNameLong :: tokenizeLayoutF fuel (rest.drop 5)
      else if startsWith rest ("on".toList) then .weekName :: tokenizeLayoutF fuel (rest.drop 2)
      else if startsWith rest ("ST".toList) then .tzAbbr :: tokenizeLayoutF fuel (rest.drop 2)
      else .lit 'M' :: tokenizeLayoutF fuel rest
    else if c = 'P' then
      match rest with
      | 'M' :: r => .pmUpper :: tokenizeLayoutF fuel r
      | r => .lit 'P' :: tokenizeLayoutF fuel r
    else if c = 'p' then
      match rest with
      | 'm' :: r => .pmLower :: tokenizeLayoutF fuel r
      | r => .lit 'p' :: tokenizeLayoutF fuel r
    else if c = 'Z' then
      if startsWith rest ("07:00".toList) then .tzZColon :: tokenizeLayoutF fuel (rest.drop 5)
      else if startsWith rest ("0700".toList) then .tzZ :: tokenizeLayoutF fuel (rest.drop 4)
      else .lit 'Z' :: tokenizeLayoutF fuel rest
    else if c = '-' then
      if startsWith rest ("07:00".toList) then .tzColon :: tokenizeLayoutF fuel (rest.drop 5)
      else if startsWith rest ("0700".toList) then .tzNum :: tokenizeLayoutF fuel (rest.drop 4)
      else .lit '-' :: tokenizeLayoutF fuel rest
    else if c = '.' then
      if rest.head? = some '9' then
        let run := rest.takeWhile (· = '9')
        .fracOpt run.length :: tokenizeLayoutF fuel (rest.drop run.length)
      else if rest.head? = some '0' then
        let run := rest.takeWhile (· = '0')
        .fracReq run.length :: tokenizeLayoutF fuel (rest.drop run.length)
      else .lit '.' :: tokenizeLayoutF fuel rest
    else .lit c :: tokenizeLayoutF fuel rest

/-- Tokenizer for layout strings, following the first-character dispatch of
`time.nextStdChunk`. -/
def tokenizeLayout (s : Str) : List Tok := tokenizeLayoutF s.length s

/-- Short month names of the `time` package. -/
def shortMonthNames : List Str :=
  ["Jan", "Feb", "Mar", "Apr", "May", "Jun",
   "Jul", "Aug", "Sep", "Oct", "Nov", "Dec"].map String.toList

/-- Long month names of the `time` package. -/
def longMonthNames : List Str :=
  ["January", "February", "March", "April", "May", "June", "July",
   "August", "September", "October", "November", "December"].map String.toList

/-- Short weekday names of the `time` package. -/
def shortDayNames : List Str :=
  ["Sun", "Mon", "Tue", "Wed", "Thu", "Fri", "Sat"].map String.toList

/-- Long weekday names of the `time` package. -/
def longDayNames : List Str :=
  ["Sunday", "Monday", "Tuesday", "Wednesday", "Thursday",
   "Friday", "Saturday"].map String.toList

/-- ASCII case-insensitive prefix match: if `n` is a case-insensitive prefix
of `s`, return the rest of `s`. -/
def matchFold : Str → Str → Option Str
  | s, [] => some s
  | [], _ :: _ => none
  | c :: cs, n :: ns => if c.toLower == n.toLower then matchFold cs ns else none

/-- Model of the `time` package's `lookup`: first name in `names` that
case-insensitively prefixes `s`, with its index and the remaining input. -/
def lookupNameGo : List Str → Str → Option (Nat × Str)
  | [], _ => none
  | n :: ns, s =>
    match matchFold s n with
    | some r => some (0, r)
    | none => (lookupNameGo ns s).map (fun p => (p.1 + 1, p.2))

/-- Consume exactly `n` decimal digits. -/
def takeNDigits (n : Nat) (s : Str) : Option (Nat × Str) :=
  let ds := s.take n
  if ds.length = n && ds.all Char.isDigit then some (digitsToNat ds, s.drop n) else none

/-- Model of the `time` package's `getnum` with `fixed = false`: one digit,
or two when the second character is also a digit. -/
def getnum12 : Str → Option (Nat × Str)
  | [] => none
  | [a] => if a.isDigit then some (digitsToNat [a], []) else none
  | a :: b :: r =>
    if a.isDigit then
      if b.isDigit then some (digitsToNat [a, b], r) else some (digitsToNat [a], b :: r)
    else none

/-- Consume a numeric zone offset `±hh:mm` (`withColon = true`) or `±hhmm`,
returning the offset in seconds. -/
def parseSignedOff (withColon : Bool) (s : Str) : Option (Int × Str) :=
  match s with
  | c :: r =>
    if c = '+' || c = '-' then
      let inner : Option ((Nat × Nat) × Str) :=
        if withColon then
          match takeNDigits 2 r with
          | some (hh, ':' :: r2) =>
            (takeNDigits 2 r2).map (fun (mm, r3) => ((hh, mm), r3))
          | _ => none
        else
          match takeNDigits 2 r with
          | some (hh, r1) => (takeNDigits 2 r1).map (fun (mm, r2) => ((hh, mm), r2))
          | none => none
      inner.map (fun ((hh, mm), rest) =>
        let off : Int := (hh * 3600 + mm * 60 : Nat)
        (if c = '-' then -off else off, rest))
    else none
  | [] => none

/-- Mutable state of a `time.Parse` run. -/
structure PState where
  year : Int := 0
  month : Nat := 1
  day : Nat := 1
  hour : Nat := 0
  minute : Nat := 0
  second : Nat := 0
  nsec : Nat := 0
  offSec : Int := 0
  pm : Option Bool := none
deriving DecidableEq, Repr

/-- Consume one layout token from the input, updating the parse state
(`none` on mismatch, like the error returns inside `time.Parse`). -/
def runTok (st : PState) (t : Tok) (s : Str) : Option (PState × Str) :=
  match t with
  | .lit c =>
    match s with
    | c' :: r => if c' == c then some (st, r) else none
    | [] => none
  | .year4 => (takeNDigits 4 s).map (fun (v, r) => ({ st with year := (v : Int) }, r))
  | .year2 =>
    (takeNDigits 2 s).map (fun (v, r) =>
      ({ st with year := ((if v ≥ 69 then 1900 + v else 2000 + v : Nat) : Int) }, r))
  | .month2 => (takeNDigits 2 s).map (fun (v, r) => ({ st with month := v }, r))
  | .month1 => (getnum12 s).map (fun (v, r) => ({ st with month := v }, r))
  | .monthName => (lookupNameGo shortMonthNames s).map (fun (i, r) => ({ st with month := i + 1 }, r))
  | .monthNameLong => (lookupNameGo longMonthNames s).map (fun (i, r) => ({ st with month := i + 1 }, r))
  | .day2 => (takeNDigits 2 s).map (fun (v, r) => ({ st with day := v }, r))
  | .day1 => (getnum12 s).map (fun (v, r) => ({ st with day := v }, r))
  | .dayUnder =>
    let s' := match s with
      | ' ' :: r => r
      | r => r
    (getnum12 s').map (fun (v, r) => ({ st with day := v }, r))
  | .weekName => (lookupNameGo shortDayNames s).map (fun (_, r) => (st, r))
  | .weekNameLong => (lookupNameGo longDayNames s).map (fun (_, r) => (st, r))
  | .hour24 =>
    match getnum12 s with
    | some (v, r) => if v < 24 then some ({ st with hour := v }, r) else none
    | none => none
  | .hour12 =>
    match getnum12 s with
    | some (v, r) => if v ≤ 12 then some ({ st with hour := v }, r) else none
    | none => none
  | .hour12two =>
    match takeNDigits 2 s with
    | some (v, r) => if v ≤ 12 then some ({ st with hour := v }, r) else none
    | none => none
  | .minute2 =>
    match takeNDigits 2 s with
    | some (v, r) => if v < 60 then some ({ st with minute := v }, r) else none
    | none => none
  | .minute1 =>
    match getnum12 s with
    | some (v, r) => if v < 60 then some ({ st with minute := v }, r) else none
    | none => none
  | .sec2 =>
    match takeNDigits 2 s with
    | some (v, r) => if v < 60 then some ({ st with second := v }, r) else none
    | none => none
  | .sec1 =>
    match getnum12 s with
    | some (v, r) => if v < 60 then some ({ st with second := v }, r) else none
    | none => none
  | .pmUpper =>
    if startsWith s ("PM".toList) then some ({ st with pm := some true }, s.drop 2)
    else if startsWith s ("AM".toList) then some ({ st with pm := some false }, s.drop 2)
    else none
  | .pmLower =>
    if startsWith s ("pm".toList) then some ({ st with pm := some true }, s.drop 2)
    else if startsWith s ("am".toList) then some ({ st with pm := some false }, s.drop 2)
    else none
  | .tzAbbr =>
    let run := s.takeWhile (fun c => c.isUpper)
    if run.length ≥ 2 then some (st, s.drop run.length) else none
  | .tzZColon =>
    match s with
    | 'Z' :: r => some ({ st with offSec := 0 }, r)
    | _ => (parseSignedOff true s).map (fun (off, r) => ({ st with offSec := off }, r))
  | .tzZ =>
    match s with
    | 'Z' :: r => some ({ st with offSec := 0 }, r)
    | _ => (parseSignedOff false s).map (fun (off, r) => ({ st with offSec := off }, r))
  | .tzColon => (parseSignedOff true s).map (fun (off, r) => ({ st with offSec := off }, r))
  | .tzNum => (parseSignedOff false s).map (fun (off, r) => ({ st with offSec := off }, r))
  | .fracOpt _ =>
    match s with
    | p :: d :: _ =>
      if (p = '.' || p = ',') && d.isDigit then
        let ds := ((s.drop 1).takeWhile Char.isDigit).take 9
        let padded := ds ++ List.replicate (9 - ds.length) '0'
        some ({ st with nsec := digitsToNat padded }, s.drop (1 + ds.length))
      else some (st, s)
    | _ => some (st, s)
  | .fracReq n =>
    match s with
    | p :: r =>
      if p = '.' || p = ',' then
        (takeNDigits n r).map (fun (v, rest) =>
          ({ st with nsec := v * 10 ^ (9 - n) }, rest))
      else none
    | [] => none

/-- Run a token list over the input; the whole input must be consumed
(leftover input makes `time.Parse` fail with an extra-text error). -/
def runToks : PState → List Tok → Str → Option PState
  | st, [], [] => some st
  | _, [], _ :: _ => none
  | st, t :: ts, s =>
    match runTok st t s with
    | none => none
    | some (st', s') => runToks st' ts s'

/-- Days in a month, with the Gregorian leap rule (the `time` package's
`daysIn`). -/
def daysInMonth (m : Nat) (y : Int) : Nat :=
  if m = 2 then (if y % 4 = 0 ∧ (y % 100 ≠ 0 ∨ y % 400 = 0) then 29 else 28)
  else if m = 4 ∨ m = 6 ∨ m = 9 ∨ m = 11 then 30
  else 31

/-- Final twelve-hour adjustment and date validation of `time.Parse`. -/
def finalizePS (st : PState) : Option CivilTime :=
  let hour := match st.pm with
    | some true => if st.hour < 12 then st.hour + 12 else st.hour
    | some false => if st.hour = 12 then 0 else st.hour
    | none => st.hour
  if st.month < 1 ∨ st.month > 12 then none
  else if st.day < 1 ∨ st.day > daysInMonth st.month st.year then none
  else some ⟨st.year, st.month, st.day, hour, st.minute, st.second, st.nsec, st.offSec⟩

/-- Model of `time.Parse(layout, s)` with errors collapsed to `none`. -/
def timeParseGo (layout s : Str) : Option CivilTime :=
  match runToks {} (tokenizeLayout layout) s with
  | none => none
  | some st => finalizePS st

/-- The layout list of `StringToDate`, in source order. -/
def dateLayouts : List Str :=
  ["2006-01-02T15:04:05Z07:00",
   "2006-01-02T15:04:05.999999999Z07:00",
   "2006-01-02T15:04:05",
   "Mon, 02 Jan 2006 15:04:05 -0700",
   "Mon, 02 Jan 2006 15:04:05 MST",
   "02 Jan 06 15:04 -0700",
   "02 Jan 06 15:04 MST",
   "Monday, 02-Jan-06 15:04:05 MST",
   "Mon Jan _2 15:04:05 2006",
   "Mon Jan _2 15:04:05 MST 2006",
   "Mon Jan 02 15:04:05 -0700 2006",
   "2006-01-02 15:04:05.999999999 -0700 MST",
   "2006-01-02",
   "02 Jan 2006",
   "2006-01-02T15:04:05-0700",
   "2006-01-02 15:04:05 -07:00",
   "2006-01-02 15:04:05 -0700",
   "2006-01-02 15:04:05Z07:00",
   "2006-01-02 15:04:05Z0700",
   "2006-01-02 15:04:05",
   "3:04PM",
   "Jan _2 15:04:05",
   "Jan _2 15:04:05.000",
   "Jan _2 15:04:05.000000",
   "Jan _2 15:04:05.000000000"].map String.toList

/-- Model of `parseDateWith`: first layout that parses wins. -/
def parseDateWithGo (s : Str) : List Str → Option CivilTime
  | [] => none
  | l :: ls =>
    match timeParseGo l s with
    | some t => some t
    | none => parseDateWithGo s ls

/-- Model of `StringToDate` (error collapsed to `none`). -/
def stringToDateGo (s : Str) : Option CivilTime := parseDateWithGo s dateLayouts

/-! ## getTypedValue -/

/-- Model of `getTypedValue(opt, t)`.  Each failure branch of a numeric case
is Go's `return 0`, an untyped constant boxed as `int`, hence `vInt 0`; the
bool case returns `false`, the string case never fails, and the struct
(timestamp) case tries `StringToDate`, then epoch seconds via
`strconv.ParseInt(opt, 10, 64)` and `time.Unix`, then the zero `time.Time`. -/
def getTypedValue (opt : Str) (t : GoKind) : GoValue :=
  match t with
  | .intK =>
    match parseIntGo opt 64 with
    | some v => .vInt v
    | none => .vInt 0
  | .int8K =>
    match parseIntGo opt 8 with
    | some v => .vInt8 v
    | none => .vInt 0
  | .int16K =>
    match parseIntGo opt 16 with
    | some v => .vInt16 v
    | none => .vInt 0
  | .int32K =>
    match parseIntGo opt 32 with
    | some v => .vInt32 v
    | none => .vInt 0
  | .int64K =>
    match parseIntGo opt 64 with
    | some v => .vInt64 v
    | none => .vInt 0
  | .uintK =>
    match parseUintGo opt 64 with
    | some v => .vUint v
    | none => .vInt 0
  | .uint8K =>
    match parseUintGo opt 8 with
    | some v => .vUint8 v
    | none => .vInt 0
  | .uint16K =>
    match parseUintGo opt 16 with
    | some v => .vUint16 v
    | none => .vInt 0
  | .uint32K =>
    match parseUintGo opt 32 with
    | some v => .vUint32 v
    | none => .vInt 0
  | .uint64K =>
    match parseUintGo opt 64 with
    | some v => .vUint64 v
    | none => .vInt 0
  | .float32K =>
    match parseFloatGo opt 32 with
    | some v => .vFloat32 v
    | none => .vInt 0
  | .float64K =>
    match parseFloatGo opt 64 with
    | some v => .vFloat64 v
    | none => .vInt 0
  | .boolK =>
    match parseBoolGo opt with
    | some b => .vBool b
    | none => .vBool false
  | .stringK => .vString opt
  | .structK =>
    match stringToDateGo opt with
    | some t => .vTime (.civil t)
    | none =>
      match parseIntGo opt 64 with
      | some sec => .vTime (.unix sec)
      | none => .vTime zeroTimeRep
  | .otherK => .vNil

/-! ## Option registry -/

/-- Model of the `Option` struct of getconf (named `OptionRec` because
`Option` is taken in Lean).  `value : Option GoValue` with `none` for the
Go nil interface of a never-set value; `updatedAt` is an abstract clock
tick (wall-clock time is not modelled).  The per-option mutex is omitted:
all modelled executions are the sequential ones. -/
structure OptionRec where
  name : Str
  oType : GoKind
  value : Option GoValue
  defValue : Str
  usage : Str
  lastSetBy : Str
  updatedAt : Nat
deriving DecidableEq, Repr

/-- Model of the registry map `options map[string]*Option`: an association
list with unique keys (Go map semantics; iteration order is fixed by
construction order, which no claim depends on). -/
abbrev Registry := List (Str × OptionRec)

/-- Lookup in the registry (Go `g2.options[key]`). -/
def lookupReg (reg : Registry) (n : Str) : Option OptionRec :=
  (reg.find? (fun e => e.1 == n)).map (·.2)

/-- The update performed on an option by `setOption`: coerce the textual
value with `getTypedValue` and stamp `updatedAt` and `lastSetBy`. -/
def updOpt (o : OptionRec) (value setBy : Str) (now : Nat) : OptionRec :=
  { o with value := some (getTypedValue value o.oType), updatedAt := now, lastSetBy := setBy }

/-- Model of `(*GetConf).setOption` (the guarded variant at
src/unnamed/part_006 lines 195-205): if the name is not registered, return
silently; otherwise update exactly that entry. -/
def setOptionGo (reg : Registry) (name value setBy : Str) (now : Nat) : Registry :=
  if (reg.find? (fun e => e.1 == name)).isNone then reg
  else reg.map (fun e => if e.1 == name then (e.1, updOpt e.2 value setBy now) else e)

/-- Errors of the registry write API. -/
inductive GoErr where
  | keyNotFound
  | valueNotString
deriving DecidableEq, Repr

/-- Model of `(*GetConf).Set` (src/unnamed/part_006 lines 181-190): the
`reflect.TypeOf(value)` guard is statically vacuous in Go (the argument is
typed `string`), so the model goes straight to the key check. -/
def setGo (reg : Registry) (key value : Str) (now : Nat) : Option GoErr × Registry :=
  if (lookupReg reg key).isNone then (some .keyNotFound, reg)
  else (none, setOptionGo reg key value ("user".toList) now)

/-- Model of `GetAll`: the name-to-value snapshot of every option whose
value is not nil. -/
def getAllGo (reg : Registry) : List (Str × GoValue) :=
  reg.filterMap (fun e => e.2.value.map (fun v => (e.2.name, v)))

/-! ## Tag parsing (src/unnamed/part_010) -/

/-- Model of `parseTag`: split at the first comma into name and option
clauses; without a comma the whole tag is the name. -/
def parseTagGo (tag : Str) : Str × Str :=
  match indexOfCharGo tag ',' with
  | some idx => (tag.take idx, trimSpaceGo (tag.drop (idx + 1)))
  | none => (tag, [])

/-- Model of `getKeyValFromTagOption`: split a clause at its first colon and
trim both halves; a clause without a colon is diagnosed and yields two empty
strings. -/
def getKeyValFromTagOptionGo (opt : Str) : Str × Str :=
  match indexOfCharGo opt ':' with
  | some idx => (trimSpaceGo (opt.take idx), trimSpaceGo (opt.drop (idx + 1)))
  | none => ([], [])

/-- The clause loop of `parseTags`: apply the comma-separated `key: value`
clauses to an option, recognizing `default` and `info` and ignoring
everything else. -/
def applyTagOptionsGo (o : OptionRec) (opts : Str) (now : Nat) : OptionRec :=
  (splitOnCharGo opts ',').foldl
    (fun o sk =>
      if sk = [] then o
      else
        let kv := getKeyValFromTagOptionGo sk
        if kv.1 = "default".toList then
          { o with defValue := kv.2,
                   value := some (getTypedValue kv.2 o.oType),
                   updatedAt := now,
                   lastSetBy := "default".toList }
        else if kv.1 = "info".toList then { o with usage := kv.2 }
        else o)
    o

/-- Model of `parseTags` on one struct field: `fname` is the Go field name,
`tagv` the `getconf` tag (if present), `kind` the field's `reflect.Kind`,
`pre` the accumulated name prefix.  Returns `none` exactly when the source
returns the `untrack` error. -/
def parseTagsGo (fname : Str) (tagv : Option Str) (kind : GoKind) (pre : Str) (now : Nat) :
    Option OptionRec :=
  let o0 : OptionRec :=
    { name := toLowerGo (pre ++ fname), oType := kind, value := none,
      defValue := [], usage := [], lastSetBy := [], updatedAt := 0 }
  match tagv with
  | none => some o0
  | some tag =>
    let tag := trimSpaceGo tag
    if tag = [] then some o0
    else if tag = ['-'] then none
    else
      let nm := parseTagGo tag
      let o1 := if nm.1 ≠ [] then { o0 with name := toLowerGo (pre ++ nm.1) } else o0
      some (applyTagOptionsGo o1 nm.2 now)

/-! ## Struct walking (src/unnamed/part_006, parseStruct) -/

/-- The field sequence of the caller's configuration struct, as seen
through reflection, encoded as a right-nested sequence (so that walking it
is plain structural recursion): `fnil` ends a struct's field list; `fleaf`
is a field of a non-struct kind; `ftime` is a `time.Time` field (kind
Struct, treated as a leaf); `fnested` is a nested struct field carrying its
children.  Each constructor carries the Go field name and the optional
`getconf` tag, followed by the remaining fields of the same struct. -/
inductive FieldTree where
  | fnil
  | fleaf (fname : Str) (tagv : Option Str) (kind : GoKind) (rest : FieldTree)
  | ftime (fname : Str) (tagv : Option Str) (rest : FieldTree)
  | fnested (fname : Str) (tagv : Option Str) (children : FieldTree) (rest : FieldTree)
deriving Repr, DecidableEq

/-- Model of the Go map assignment `g2.options[opt.name] = opt`. -/
def insertOpt (reg : Registry) (o : OptionRec) : Registry :=
  if reg.any (fun e => e.1 == o.name) then
    reg.map (fun e => if e.1 == o.name then (o.name, o) else e)
  else reg ++ [(o.name, o)]

/-- Model of `(*GetConf).parseStruct` (src/unnamed/part_006 lines 125-158):
walk the fields in order; an untracked field is skipped with all its
children; a `time.Time` field and every non-struct field register one
option; a nested struct field is recursed into with prefix
`opt.name ++ keyDelim` (the nested field itself registers no option). -/
def parseStructGo (delim : Str) (now : Nat) : FieldTree → Str → Registry → Registry
  | .fnil, _, reg => reg
  | .fleaf fn tg k rest, pre, reg =>
    (match parseTagsGo fn tg k pre now with
     | none => parseStructGo delim now rest pre reg
     | some o => parseStructGo delim now rest pre (insertOpt reg o))
  | .ftime fn tg rest, pre, reg =>
    (match parseTagsGo fn tg .structK pre now with
     | none => parseStructGo delim now rest pre reg
     | some o => parseStructGo delim now rest pre (insertOpt reg o))
  | .fnested fn tg cs rest, pre, reg =>
    (match parseTagsGo fn tg .structK pre now with
     | none => parseStructGo delim now rest pre reg
     | some o =>
       parseStructGo delim now rest pre
         (parseStructGo delim now cs (o.name ++ delim) reg))

/-! ## Environment stage (src/environment.go) -/

/-- The environment-key computation inside `getEnv` (src/environment.go
lines 34-40): append `_` to the prefix unless already present, substitute
`-`→`_`, keyDelim→`__`, `.`→`_` in the name (in that order), and uppercase
the concatenation. -/
def getEnvKeyGo (envPfx flagName keyDelim : Str) : Str :=
  let p := if hasSuffixGo envPfx ("_".toList) then envPfx else envPfx ++ "_".toList
  let n := replaceAllGo flagName ("-".toList) ("_".toList)
  let n := replaceAllGo n keyDelim ("__".toList)
  let n := replaceAllGo n (".".toList) ("_".toList)
  toUpperGo (p ++ n)

/-- Model of `getEnv`: an empty prefix short-circuits to the empty string;
otherwise look the computed key up in the process environment (modelled as
a total function returning `""` for unset variables, as `os.Getenv` does). -/
def getEnvGo (env : Str → Str) (envPfx flagName keyDelim : Str) : Str :=
  if envPfx = [] then []
  else env (getEnvKeyGo envPfx flagName keyDelim)

/-- One iteration of the `loadFromEnv` loop for the option named `n`:
write through `setOption` with setter `"env"` when the lookup is
non-empty. -/
def envStepGo (env : Str → Str) (envPfx keyDelim : Str) (now : Nat) (r : Registry) (n : Str) :
    Registry :=
  if getEnvGo env envPfx n keyDelim ≠ [] then
    setOptionGo r n (getEnvGo env envPfx n keyDelim) ("env".toList) now
  else r

/-- Model of `loadFromEnv`: iterate over the registered options (names
snapshot) and write through `setOption` with setter `"env"` whenever the
lookup is non-empty. -/
def loadFromEnvGo (env : Str → Str) (envPfx keyDelim : Str) (now : Nat) (reg : Registry) :
    Registry :=
  (reg.map (fun e => e.2.name)).foldl (envStepGo env envPfx keyDelim now) reg

/-! ## Flag stage (src/unnamed/part_006, loadFromFlags)

The command-line parser is the external `flag` package (an external
collaborator per the spec).  Its observable outcome is the set of flags
that were explicitly supplied, each with its final textual value;
`flagSet.Visit` then calls `setOption(name, value, "flag")` once per such
flag.  `supplied` below is that visited list (names are distinct because
`Visit` visits each formal flag at most once, and every supplied name is a
registered option name because only those were registered as flags). -/

/-- One `Visit` callback of the flag stage: `setOption(name, value, "flag")`. -/
def flagStepGo (now : Nat) (r : Registry) (pv : Str × Str) : Registry :=
  setOptionGo r pv.1 pv.2 ("flag".toList) now

/-- Model of `loadFromFlags` after parsing: fold `setOption _ _ "flag"` over
the explicitly supplied flags. -/
def loadFromFlagsGo (supplied : List (Str × Str)) (now : Nat) (reg : Registry) : Registry :=
  supplied.foldl (flagStepGo now) reg

/-- Lookup of an explicitly supplied flag's final value (the outcome of the
external parse, keyed by flag name). -/
def flagLookup (supplied : List (Str × Str)) (n : Str) : Option Str :=
  (supplied.find? (fun p => p.1 == n)).map (·.2)

/-- Model of `Load` (src/unnamed/part_006 lines 97-115) after option
resolution: parse the config struct, then the environment stage, then the
flag stage.  The three stages receive separate clock ticks. -/
def loadGo (delim envPfx : Str) (spec : FieldTree) (env : Str → Str)
    (supplied : List (Str × Str)) (n1 n2 n3 : Nat) : Registry :=
  loadFromFlagsGo supplied n3
    (loadFromEnvGo env envPfx delim n2
      (parseStructGo delim n1 spec [] []))

/-! ## Remote-key translation and watch loops (src/kvstore.go) -/

/-- Model of `getKVKey` (src/kvstore.go lines 485-489): build the remote
path `kvPrefix + "/" + setName + "/" + kvBucket + "/" + name` with every
keyDelim in the name replaced by `/`. -/
def getKVKeyGo (kvPfx setName kvBucket keyDelim nm : Str) : Str :=
  let name := replaceAllGo nm keyDelim ("/".toList)
  kvPfx ++ "/".toList ++ setName ++ "/".toList ++ kvBucket ++ "/".toList ++ name

/-- Model of `getGCKey` (src/kvstore.go lines 493-496): take the last
segment of `SplitAfter(k, kvPrefix + "/" + setName + "/" + kvBucket + "/")`
and replace `/` by keyDelim. -/
def getGCKeyGo (kvPfx setName kvBucket keyDelim k : Str) : Str :=
  let pat := kvPfx ++ "/".toList ++ setName ++ "/".toList ++ kvBucket ++ "/".toList
  let split := splitAfterGo k pat
  replaceAllGo (split.getLastD []) ("/".toList) keyDelim

/-- The alternatives of the `select` inside `WatchWithFunc`'s goroutine:
a receive from the event channel (`none` models the nil value obtained from
a closed channel) or the context's done channel firing. -/
inductive SingleWatchSelect where
  | recv (v : Option Str)
  | ctxDone
deriving DecidableEq, Repr

/-- The alternatives of the `select` inside `WatchTreeWithFunc`'s goroutine.
The source select has exactly one case — the receive from the event channel
— and no `ctx.Done()` case, so a cancellation alternative does not exist in
this type. -/
inductive TreeWatchSelect where
  | recv (pairs : Option (List (Str × Str)))
deriving DecidableEq, Repr

/-- What an iteration of a watch loop does: keep looping or return. -/
inductive LoopOutcome where
  | continueLoop
  | exitLoop
deriving DecidableEq, Repr

/-- One iteration of `WatchWithFunc`'s goroutine loop (src/kvstore.go lines
464-479): on a non-nil received value, write through the registry under the
translated logical name and invoke the callback; on `ctx.Done()`, return.
The result carries the updated registry, the callback payloads, and whether
the loop exits. -/
def watchWithFuncStep (kvPfx setName kvBucket keyDelim : Str) (reg : Registry) (key : Str)
    (now : Nat) : SingleWatchSelect → Registry × List Str × LoopOutcome
  | .recv (some val) =>
    let k := getGCKeyGo kvPfx setName kvBucket keyDelim key
    (setOptionGo reg k val ("kvstore".toList) now, [val], .continueLoop)
  | .recv none => (reg, [], .continueLoop)
  | .ctxDone => (reg, [], .exitLoop)

/-- One iteration of `WatchTreeWithFunc`'s goroutine loop (src/kvstore.go
lines 517-529): the single select case receives a pair list (nil from a
closed channel modelled as `none`); each non-nil pair is written through the
registry under the key obtained by stripping the directory prefix, and the
callback is invoked once per pair.  There is no alternative that exits the
loop. -/
def watchTreeWithFuncStep (reg : Registry) (dir : Str) (now : Nat) :
    TreeWatchSelect → Registry × List (Str × Str) × LoopOutcome
  | .recv none => (reg, [], .continueLoop)
  | .recv (some pairs) =>
    let dir1 := trimPrefixGo dir ("/".toList)
    let dir2 := if dir1.getLastD ' ' ≠ '/' then dir1 ++ "/".toList else dir1
    let out := pairs.foldl
      (fun (acc : Registry × List (Str × Str)) p =>
        let key := (splitAfterGo p.1 dir2).getLastD []
        (setOptionGo acc.1 key p.2 ("kvstore".toList) now, acc.2 ++ [p]))
      (reg, [])
    (out.1, out.2, .continueLoop)

/-! ## Invariant predicates and claim-side definitions -/

/-- Default-materialization invariant: whenever `lastSetBy` is `"default"`,
the stored value is the coercion of the stored default text at the option's
own kind. -/
def DefaultP (o : OptionRec) : Prop :=
  o.lastSetBy = "default".toList → o.value = some (getTypedValue o.defValue o.oType)


/-- Entry-wise default invariant over a registry. -/
def RegDefaultP (reg : Registry) : Prop := ∀ e ∈ reg, DefaultP e.2


/-- The semantic types named by the coercion contract (everything
`getTypedValue` handles except the default `nil` fallthrough). -/
def supportedKind : GoKind → Bool
  | .otherK => false
  | _ => true

/-- Whether the text fails to parse for the given semantic type, mirroring
the error conditions of the strconv/time calls inside `getTypedValue`.
A string never fails; a timestamp fails only when both the layout list and
the epoch-seconds fallback fail. -/
def coercionFailsB (s : Str) : GoKind → Bool
  | .intK => (parseIntGo s 64).isNone
  | .int8K => (parseIntGo s 8).isNone
  | .int16K => (parseIntGo s 16).isNone
  | .int32K => (parseIntGo s 32).isNone
  | .int64K => (parseIntGo s 64).isNone
  | .uintK => (parseUintGo s 64).isNone
  | .uint8K => (parseUintGo s 8).isNone
  | .uint16K => (parseUintGo s 16).isNone
  | .uint32K => (parseUintGo s 32).isNone
  | .uint64K => (parseUintGo s 64).isNone
  | .float32K => (parseFloatGo s 32).isNone
  | .float64K => (parseFloatGo s 64).isNone
  | .boolK => (parseBoolGo s).isNone
  | .stringK => false
  | .structK => (stringToDateGo s).isNone && (parseIntGo s 64).isNone
  | .otherK => false

/-- The zero value the claim promises on coercion failure: 0 for the
numeric types (Go's failure branches return the untyped constant `0`,
boxed as `int`), `false` for bool, the empty string for string, and the
zero timestamp for timestamp. -/
def zeroValueOf : GoKind → GoValue
  | .boolK => .vBool false
  | .stringK => .vString []
  | .structK => .vTime zeroTimeRep
  | .otherK => .vNil
  | _ => .vInt 0

/-- Environment key exactly as the claim words it:
`UPPER(envPrefix + "_" + name)` with the name substitutions applied
(written from the claim, for comparison with `getEnvKeyGo`). -/
def envKeyClaimedC5 (envPfx nm keyDelim : Str) : Str :=
  toUpperGo (envPfx ++ "_".toList ++
    replaceAllGo
      (replaceAllGo (replaceAllGo nm ("-".toList) ("_".toList)) keyDelim ("__".toList))
      (".".toList) ("_".toList))

/-! ## Registry lemmas -/

/-- Well-formedness of a registry produced by `parseStruct`: keys are
distinct (Go map) and every entry is stored under its option's name. -/
def WFReg (reg : Registry) : Prop :=
  (reg.map (·.1)).Nodup ∧ ∀ e ∈ reg, e.1 = e.2.name

instance : DecidablePred WFReg := fun reg => by
  unfold WFReg
  infer_instance

theorem lookupReg_map_upd_self (reg : Registry) (n : Str) (f : OptionRec → OptionRec) :
    lookupReg (reg.map (fun e => if e.1 == n then (e.1, f e.2) else e)) n =
      (lookupReg reg n).map f := by
  induction reg with
  | nil => rfl
  | cons e es ih =>
    by_cases he : e.1 = n
    · simp only [List.map_cons, lookupReg, List.find?_cons]
      have : (e.1 == n) = true := by simp [he]
      simp [this, he]
    · have : (e.1 == n) = false := by simp [he]
      simp only [List.map_cons, lookupReg, List.find?_cons, this, if_neg, Bool.false_eq_true,
        if_false]
      exact ih

theorem lookupReg_map_upd_other (reg : Registry) (n m : Str) (f : OptionRec → OptionRec)
    (hm : m ≠ n) :
    lookupReg (reg.map (fun e => if e.1 == n then (e.1, f e.2) else e)) m =
      lookupReg reg m := by
  induction reg with
  | nil => rfl
  | cons e es ih =>
    by_cases he : e.1 = n
    · have h1 : (e.1 == n) = true := by simp [he]
      have h2 : (e.1 == m) = false := by simp [he, Ne.symm hm]
      simp only [List.map_cons, lookupReg, List.find?_cons, h1, if_true, h2,
        Bool.false_eq_true, if_false]
      exact ih
    · have h1 : (e.1 == n) = false := by simp [he]
      by_cases hem : e.1 = m
      · have h2 : (e.1 == m) = true := by simp [hem]
        simp only [List.map_cons, lookupReg, List.find?_cons, h1, Bool.false_eq_true,
          if_false, h2, if_true]
      · have h2 : (e.1 == m) = false := by simp [hem]
        simp only [List.map_cons, lookupReg, List.find?_cons, h1, Bool.false_eq_true,
          if_false, h2]
        exact ih

theorem lookupReg_setOption_self (reg : Registry) (n v sb : Str) (now : Nat) :
    lookupReg (setOptionGo reg n v sb now) n =
      (lookupReg reg n).map (fun o => updOpt o v sb now) := by
  unfold setOptionGo
  split
  · next hfind =>
    rw [Option.isNone_iff_eq_none] at hfind
    simp [lookupReg, hfind]
  · exact lookupReg_map_upd_self reg n (fun o => updOpt o v sb now)

theorem lookupReg_setOption_other (reg : Registry) (n v sb m : Str) (now : Nat)
    (hm : m ≠ n) :
    lookupReg (setOptionGo reg n v sb now) m = lookupReg reg m := by
  unfold setOptionGo
  split
  · rfl
  · exact lookupReg_map_upd_other reg n m (fun o => updOpt o v sb now) hm

/-! ## Environment-fold and flag-fold lemmas -/

theorem lookupReg_envFold_not_mem (env : Str → Str) (p delim : Str) (now : Nat) :
    ∀ (ns : List Str) (r : Registry) (n : Str), n ∉ ns →
      lookupReg (ns.foldl (envStepGo env p delim now) r) n = lookupReg r n := by
  intro ns
  induction ns with
  | nil => intro r n _; rfl
  | cons m tl ih =>
    intro r n hn
    rw [List.mem_cons, not_or] at hn
    rw [List.foldl_cons, ih _ n hn.2]
    unfold envStepGo
    split
    · exact lookupReg_setOption_other r m _ _ n now hn.1
    · rfl

theorem lookupReg_envFold_mem (env : Str → Str) (p delim : Str) (now : Nat) :
    ∀ (ns : List Str) (r : Registry) (n : Str), ns.Nodup → n ∈ ns →
      lookupReg (ns.foldl (envStepGo env p delim now) r) n =
        (lookupReg r n).map (fun o =>
          if getEnvGo env p n delim ≠ [] then
            updOpt o (getEnvGo env p n delim) ("env".toList) now
          else o) := by
  intro ns
  induction ns with
  | nil => intro r n _ hn; exact absurd hn (List.not_mem_nil n)
  | cons m tl ih =>
    intro r n hnd hn
    rw [List.nodup_cons] at hnd
    rw [List.foldl_cons]
    rcases List.mem_cons.mp hn with hnm | hmem
    · subst hnm
      rw [lookupReg_envFold_not_mem env p delim now tl _ n hnd.1]
      unfold envStepGo
      split
      · next hval =>
        rw [lookupReg_setOption_self]
        try simp [hval]
      · next hval =>
        rw [not_not] at hval
        simp [hval]
    · by_cases hnm : n = m
      · subst hnm; exact absurd hmem hnd.1
      · rw [ih _ n hnd.2 hmem]
        have : lookupReg (envStepGo env p delim now r m) n = lookupReg r n := by
          unfold envStepGo
          split
          · exact lookupReg_setOption_other r m _ _ n now hnm
          · rfl
        rw [this]

/-- Keys absent from the registry look up to `none`. -/
theorem lookupReg_eq_none_of_not_mem (reg : Registry) (n : Str)
    (h : n ∉ reg.map (·.1)) : lookupReg reg n = none := by
  unfold lookupReg
  have hfind : reg.find? (fun e => e.1 == n) = none := by
    rw [List.find?_eq_none]
    intro e he
    simp only [beq_iff_eq]
    intro hcontra
    exact h (hcontra ▸ List.mem_map_of_mem (·.1) he)
  rw [hfind]
  rfl

/-- The behavioural content of the environment stage: for a well-formed
registry, every option is rewritten (with setter `"env"`) exactly when its
environment lookup is non-empty, and is untouched otherwise. -/
theorem lookupReg_loadFromEnv (env : Str → Str) (p delim : Str) (now : Nat)
    (reg : Registry) (n : Str) (hwf : WFReg reg) :
    lookupReg (loadFromEnvGo env p delim now reg) n =
      (lookupReg reg n).map (fun o =>
        if getEnvGo env p n delim ≠ [] then
          updOpt o (getEnvGo env p n delim) ("env".toList) now
        else o) := by
  unfold loadFromEnvGo
  have hmapeq : reg.map (fun e => e.2.name) = reg.map (·.1) :=
    (List.map_congr_left (fun e he => (hwf.2 e he).symm))
  rw [hmapeq]
  by_cases hn : n ∈ reg.map (·.1)
  · exact lookupReg_envFold_mem env p delim now _ reg n hwf.1 hn
  · rw [lookupReg_envFold_not_mem env p delim now _ reg n hn,
      lookupReg_eq_none_of_not_mem reg n hn]
    rfl

/-- With an empty prefix the whole environment stage is the identity. -/
theorem loadFromEnv_empty_noop (env : Str → Str) (delim : Str) (now : Nat) (reg : Registry) :
    loadFromEnvGo env [] delim now reg = reg := by
  unfold loadFromEnvGo
  generalize reg.map (fun e => e.2.name) = ns
  induction ns generalizing reg with
  | nil => rfl
  | cons m tl ih =>
    rw [List.foldl_cons]
    have : envStepGo env [] delim now reg m = reg := by
      unfold envStepGo getEnvGo
      simp
    rw [this]
    exact ih reg

theorem lookupReg_flagFold_not_mem (now : Nat) :
    ∀ (supplied : List (Str × Str)) (r : Registry) (n : Str),
      (∀ p ∈ supplied, p.1 ≠ n) →
      lookupReg (supplied.foldl (flagStepGo now) r) n = lookupReg r n := by
  intro supplied
  induction supplied with
  | nil => intro r n _; rfl
  | cons pv tl ih =>
    intro r n h
    rw [List.foldl_cons, ih _ n (fun p hp => h p (List.mem_cons_of_mem pv hp))]
    exact lookupReg_setOption_other r pv.1 pv.2 _ n now (Ne.symm (h pv (List.mem_cons_self pv tl)))

theorem lookupReg_flagFold_found (now : Nat) :
    ∀ (supplied : List (Str × Str)) (r : Registry) (n v : Str),
      (supplied.map Prod.fst).Nodup → flagLookup supplied n = some v →
      lookupReg (supplied.foldl (flagStepGo now) r) n =
        (lookupReg r n).map (fun o => updOpt o v ("flag".toList) now) := by
  intro supplied
  induction supplied with
  | nil => intro r n v _ hfl; exact absurd hfl (by simp [flagLookup])
  | cons pv tl ih =>
    intro r n v hnd hfl
    rw [List.map_cons, List.nodup_cons] at hnd
    rw [List.foldl_cons]
    by_cases hpn : pv.1 = n
    · have hv : pv.2 = v := by
        unfold flagLookup at hfl
        rw [List.find?_cons_of_pos _ (by simp [hpn])] at hfl
        simpa using hfl
      subst hv
      have htl : ∀ p ∈ tl, p.1 ≠ n := by
        intro p hp hc
        have hmem : p.1 ∈ List.map Prod.fst tl := List.mem_map_of_mem Prod.fst hp
        rw [hc, ← hpn] at hmem
        exact hnd.1 hmem
      rw [lookupReg_flagFold_not_mem now tl _ n htl]
      unfold flagStepGo
      rw [hpn, lookupReg_setOption_self]
    · have hfl' : flagLookup tl n = some v := by
        unfold flagLookup at hfl ⊢
        rwa [List.find?_cons_of_neg _ (by simp [hpn])] at hfl
      rw [ih _ n v hnd.2 hfl']
      unfold flagStepGo
      rw [lookupReg_setOption_other r pv.1 pv.2 _ n now (fun h => hpn h.symm)]

/-! ## parseStruct invariants -/

theorem WFReg_insertOpt (reg : Registry) (o : OptionRec) (hwf : WFReg reg) :
    WFReg (insertOpt reg o) := by
  have hname : ∀ e : Str × OptionRec,
      (if e.1 == o.name then (o.name, o) else e).1 = e.1 := by
    intro e
    by_cases he : e.1 = o.name
    · rw [if_pos (by simp [he])]
      exact he.symm
    · rw [if_neg (by simp [he])]
  unfold insertOpt
  split
  · constructor
    · have hkeys : (reg.map (fun e => if e.1 == o.name then (o.name, o) else e)).map (·.1) =
          reg.map (·.1) := by
        rw [List.map_map]
        exact List.map_congr_left (fun e _ => hname e)
      rw [hkeys]
      exact hwf.1
    · intro e he
      rcases List.mem_map.mp he with ⟨e', he', heq⟩
      subst heq
      by_cases h : e'.1 = o.name
      · rw [if_pos (by simp [h])]
      · rw [if_neg (by simp [h])]
        exact hwf.2 e' he'
  · next hany =>
    constructor
    · rw [List.map_append]
      rw [List.nodup_append]
      refine ⟨hwf.1, by simp, ?_⟩
      intro a ha
      simp only [List.map_cons, List.map_nil, List.mem_cons, List.not_mem_nil, or_false]
      intro hao
      rw [List.any_eq_true] at hany
      rcases List.mem_map.mp ha with ⟨e, he, hea⟩
      exact hany ⟨e, he, by simp [hea, hao]⟩
    · intro e he
      rcases List.mem_append.mp he with h | h
      · exact hwf.2 e h
      · simp only [List.mem_singleton] at h
        rw [h]

theorem WFReg_parseStruct (delim : Str) (now : Nat) :
    ∀ (ft : FieldTree) (pre : Str) (reg : Registry), WFReg reg →
      WFReg (parseStructGo delim now ft pre reg) := by
  intro ft
  induction ft with
  | fnil => intro pre reg hwf; exact hwf
  | fleaf fn tg k rest ih =>
    intro pre reg hwf
    unfold parseStructGo
    cases parseTagsGo fn tg k pre now with
    | none => exact ih pre reg hwf
    | some o => exact ih pre _ (WFReg_insertOpt reg o hwf)
  | ftime fn tg rest ih =>
    intro pre reg hwf
    unfold parseStructGo
    cases parseTagsGo fn tg .structK pre now with
    | none => exact ih pre reg hwf
    | some o => exact ih pre _ (WFReg_insertOpt reg o hwf)
  | fnested fn tg cs rest ihc ih =>
    intro pre reg hwf
    unfold parseStructGo
    cases parseTagsGo fn tg .structK pre now with
    | none => exact ih pre reg hwf
    | some o => exact ih pre _ (ihc _ reg hwf)

theorem applyTagOptions_defaultP (opts : Str) (now : Nat) :
    ∀ (o : OptionRec), DefaultP o → DefaultP (applyTagOptionsGo o opts now) := by
  unfold applyTagOptionsGo
  generalize splitOnCharGo opts ',' = l
  induction l with
  | nil => intro o h; exact h
  | cons sk tl ih =>
    intro o h
    rw [List.foldl_cons]
    apply ih
    dsimp only
    split
    · exact h
    · split
      · intro _
        rfl
      · split
        · intro hl
          exact h hl
        · exact h

theorem applyTagOptions_name (opts : Str) (now : Nat) :
    ∀ (o : OptionRec), (applyTagOptionsGo o opts now).name = o.name := by
  unfold applyTagOptionsGo
  generalize splitOnCharGo opts ',' = l
  induction l with
  | nil => intro o; rfl
  | cons sk tl ih =>
    intro o
    rw [List.foldl_cons, ih]
    dsimp only
    split
    · rfl
    · split
      · rfl
      · split
        · rfl
        · rfl

theorem parseTags_defaultP (fname : Str) (tagv : Option Str) (kind : GoKind) (pre : Str)
    (now : Nat) (o : OptionRec) (h : parseTagsGo fname tagv kind pre now = some o) :
    DefaultP o := by
  unfold parseTagsGo at h
  rcases tagv with _ | tag
  · cases h
    intro hl
    simp at hl
  · dsimp only at h
    by_cases h1 : trimSpaceGo tag = []
    · rw [if_pos h1] at h
      cases h
      intro hl
      simp at hl
    · rw [if_neg h1] at h
      by_cases h2 : trimSpaceGo tag = ['-']
      · rw [if_pos h2] at h
        cases h
      · rw [if_neg h2] at h
        cases h
        apply applyTagOptions_defaultP
        split
        · intro hl
          simp at hl
        · intro hl
          simp at hl

theorem RegDefaultP_insertOpt (reg : Registry) (o : OptionRec)
    (hreg : RegDefaultP reg) (ho : DefaultP o) : RegDefaultP (insertOpt reg o) := by
  unfold insertOpt
  split
  · intro e he
    rcases List.mem_map.mp he with ⟨e', he', heq⟩
    by_cases h : e'.1 = o.name
    · rw [← heq]
      simp only [beq_iff_eq, h, if_true]
      exact ho
    · rw [← heq]
      simp only [beq_iff_eq, h, if_false]
      exact hreg e' he'
  · intro e he
    rcases List.mem_append.mp he with h | h
    · exact hreg e h
    · simp only [List.mem_singleton] at h
      rw [h]
      exact ho

theorem RegDefaultP_parseStruct (delim : Str) (now : Nat) :
    ∀ (ft : FieldTree) (pre : Str) (reg : Registry), RegDefaultP reg →
      RegDefaultP (parseStructGo delim now ft pre reg) := by
  intro ft
  induction ft with
  | fnil => intro pre reg h; exact h
  | fleaf fn tg k rest ih =>
    intro pre reg h
    unfold parseStructGo
    cases hp : parseTagsGo fn tg k pre now with
    | none => exact ih pre reg h
    | some o => exact ih pre _ (RegDefaultP_insertOpt reg o h (parseTags_defaultP _ _ _ _ _ _ hp))
  | ftime fn tg rest ih =>
    intro pre reg h
    unfold parseStructGo
    cases hp : parseTagsGo fn tg .structK pre now with
    | none => exact ih pre reg h
    | some o => exact ih pre _ (RegDefaultP_insertOpt reg o h (parseTags_defaultP _ _ _ _ _ _ hp))
  | fnested fn tg cs rest ihc ih =>
    intro pre reg h
    unfold parseStructGo
    cases hp : parseTagsGo fn tg .structK pre now with
    | none => exact ih pre reg h
    | some o => exact ih pre _ (ihc _ reg h)

theorem lookupReg_mem (reg : Registry) (n : Str) (o : OptionRec)
    (h : lookupReg reg n = some o) : ∃ e ∈ reg, e.2 = o := by
  unfold lookupReg at h
  rcases Option.map_eq_some'.mp h with ⟨e, he, heq⟩
  exact ⟨e, List.mem_of_find?_eq_some he, heq⟩

/-! ## Claim C2 -/

/-- C2: for every name that is not registered in the registry and every
text value, `Set(name, value)` returns the `ErrKeyNotFound` error and
leaves the registry completely unchanged; in particular it never creates a
new entry for that name. -/
theorem c2_set_unregistered_fails (reg : Registry) (n v : Str) (now : Nat)
    (h : lookupReg reg n = none) :
    setGo reg n v now = (some GoErr.keyNotFound, reg) ∧
      lookupReg (setGo reg n v now).2 n = none := by
  have hs : setGo reg n v now = (some GoErr.keyNotFound, reg) := by
    unfold setGo
    simp [h]
  exact ⟨hs, by rw [hs]; exact h⟩

/-- Witness for C2 at a concrete registry and name. -/
theorem c2_witness :
    lookupReg [(("port".toList : Str), OptionRec.mk ("port".toList) .intK none [] [] [] 0)]
        ("host".toList) = none ∧
      setGo [(("port".toList : Str), OptionRec.mk ("port".toList) .intK none [] [] [] 0)]
        ("host".toList) ("x".toList) 7 =
        (some GoErr.keyNotFound,
         [(("port".toList : Str), OptionRec.mk ("port".toList) .intK none [] [] [] 0)]) :=
  ⟨by decide,
   (c2_set_unregistered_fails
     [(("port".toList : Str), OptionRec.mk ("port".toList) .intK none [] [] [] 0)]
     ("host".toList) ("x".toList) 7 (by decide)).1⟩

/-! ## Claim C10 -/

/-- C10: the internal registry write `setOption` is total on its name
argument — called with an unregistered name it returns silently, creating no
entry and mutating nothing; called with a registered name it mutates only
the `value`, `updatedAt` and `lastSetBy` fields of that one option (its
`name`, `oType`, `defValue` and `usage` are kept, and every other entry is
untouched). -/
theorem c10_setOption_total (reg : Registry) (n v sb : Str) (now : Nat) :
    (lookupReg reg n = none → setOptionGo reg n v sb now = reg) ∧
      (∀ o, lookupReg reg n = some o →
        lookupReg (setOptionGo reg n v sb now) n =
            some { o with value := some (getTypedValue v o.oType),
                          updatedAt := now, lastSetBy := sb } ∧
          (∀ m, m ≠ n → lookupReg (setOptionGo reg n v sb now) m = lookupReg reg m)) := by
  constructor
  · intro h
    unfold setOptionGo
    have hfind : (reg.find? (fun e => e.1 == n)) = none := by
      unfold lookupReg at h
      exact Option.map_eq_none.mp h
    simp [hfind]
  · intro o ho
    refine ⟨?_, fun m hm => lookupReg_setOption_other reg n v sb m now hm⟩
    rw [lookupReg_setOption_self, ho]
    rfl

/-- Witness for C10: both branches exercised on a concrete registry. -/
theorem c10_witness :
    (lookupReg [(("port".toList : Str), OptionRec.mk ("port".toList) .intK none [] [] [] 0)]
        ("nope".toList) = none ∧
      setOptionGo [(("port".toList : Str), OptionRec.mk ("port".toList) .intK none [] [] [] 0)]
        ("nope".toList) ("9".toList) ("kvstore".toList) 3 =
        [(("port".toList : Str), OptionRec.mk ("port".toList) .intK none [] [] [] 0)]) ∧
      lookupReg (setOptionGo
          [(("port".toList : Str), OptionRec.mk ("port".toList) .intK none [] [] [] 0)]
          ("port".toList) ("9".toList) ("kvstore".toList) 3) ("port".toList) =
        some (OptionRec.mk ("port".toList) .intK (some (.vInt 9)) [] [] ("kvstore".toList) 3) :=
  ⟨⟨by decide,
    (c10_setOption_total
      [(("port".toList : Str), OptionRec.mk ("port".toList) .intK none [] [] [] 0)]
      ("nope".toList) ("9".toList) ("kvstore".toList) 3).1 (by decide)⟩,
   by
    have h := ((c10_setOption_total
      [(("port".toList : Str), OptionRec.mk ("port".toList) .intK none [] [] [] 0)]
      ("port".toList) ("9".toList) ("kvstore".toList) 3).2
      (OptionRec.mk ("port".toList) .intK none [] [] [] 0) (by decide)).1
    rw [h]
    decide⟩

/-! ## Claim C3 -/

/-- C3: for every input text and every semantic type in the supported set,
`getTypedValue` is total and never yields the nil interface, and when the
text fails to parse for that type it returns that type's zero value. -/
theorem c3_coercion_zero_on_failure (s : Str) (k : GoKind)
    (hk : supportedKind k = true) :
    getTypedValue s k ≠ GoValue.vNil ∧
      (coercionFailsB s k = true → getTypedValue s k = zeroValueOf k) := by
  cases k <;>
    first
    | exact absurd hk (by decide)
    | exact ⟨by
          simp only [getTypedValue]
          try split
          all_goals try split
          all_goals simp,
        by
          intro hf
          simp only [coercionFailsB, Bool.and_eq_true, Option.isNone_iff_eq_none] at hf
          first
          | exact absurd hf (by decide)
          | (simp only [getTypedValue, zeroValueOf]
             first
             | (obtain ⟨h1, h2⟩ := hf; simp [h1, h2])
             | simp [hf])⟩

/-- Witness for C3 on a concrete failing input and type. -/
theorem c3_witness :
    supportedKind GoKind.int8K = true ∧ coercionFailsB ("999".toList) GoKind.int8K = true ∧
      getTypedValue ("999".toList) GoKind.int8K = zeroValueOf GoKind.int8K :=
  ⟨by decide, by decide,
   (c3_coercion_zero_on_failure ("999".toList) GoKind.int8K (by decide)).2 (by decide)⟩

/-! ## Claim C4 -/

/-- C4: timestamp coercion tries the ordered layout list and takes the
first successful parse, falls back to Unix epoch seconds, and finally to
the zero timestamp.  The four sample strings coerce to non-zero timestamps
(the epoch sample demonstrably through the `time.Unix` fallback, since no
layout matches it) and `"not-a-date"` coerces to the zero timestamp. -/
theorem c4_timestamp_coercion :
    getTypedValue ("2017-10-24T22:11:12+00:00".toList) .structK =
        .vTime (.civil ⟨2017, 10, 24, 22, 11, 12, 0, 0⟩) ∧
      isZeroTimeRep (.civil ⟨2017, 10, 24, 22, 11, 12, 0, 0⟩) = false ∧
      getTypedValue ("2017-10-24 22:41:45".toList) .structK =
        .vTime (.civil ⟨2017, 10, 24, 22, 41, 45, 0, 0⟩) ∧
      isZeroTimeRep (.civil ⟨2017, 10, 24, 22, 41, 45, 0, 0⟩) = false ∧
      getTypedValue ("2017-10-24".toList) .structK =
        .vTime (.civil ⟨2017, 10, 24, 0, 0, 0, 0, 0⟩) ∧
      isZeroTimeRep (.civil ⟨2017, 10, 24, 0, 0, 0, 0, 0⟩) = false ∧
      stringToDateGo ("1508922049".toList) = none ∧
      parseIntGo ("1508922049".toList) 64 = some 1508922049 ∧
      getTypedValue ("1508922049".toList) .structK = .vTime (.unix 1508922049) ∧
      isZeroTimeRep (.unix 1508922049) = false ∧
      stringToDateGo ("not-a-date".toList) = none ∧
      parseIntGo ("not-a-date".toList) 64 = none ∧
      getTypedValue ("not-a-date".toList) .structK = .vTime zeroTimeRep ∧
      isZeroTimeRep zeroTimeRep = true :=
  ⟨by decide, by decide, by decide, by decide, by decide, by decide, by decide,
   by decide, by decide, by decide, by decide, by decide, by decide, by decide⟩

/-! ## Claim C9 -/

/-- C9 (code evidence): the select of `WatchTreeWithFunc`'s listening loop
has no cancellation alternative — `TreeWatchSelect` has only the
channel-receive constructor, so no input makes the loop exit; the sibling
`WatchWithFunc` loop does exit on its `ctx.Done()` alternative. -/
theorem c9_tree_watch_never_exits :
    (∀ (reg : Registry) (dir : Str) (now : Nat) (inp : TreeWatchSelect),
        (watchTreeWithFuncStep reg dir now inp).2.2 = LoopOutcome.continueLoop) ∧
      (∀ (kvPfx setName kvBucket keyDelim : Str) (reg : Registry) (key : Str) (now : Nat),
        (watchWithFuncStep kvPfx setName kvBucket keyDelim reg key now
            SingleWatchSelect.ctxDone).2.2 = LoopOutcome.exitLoop) := by
  constructor
  · intro reg dir now inp
    rcases inp with ⟨_ | pairs⟩ <;> rfl
  · intro _ _ _ _ _ _ _
    rfl

/-! ## Claim C5: counterexample material -/

/-- C5 counterexample: with `envPrefix = "P_"` (already ending in an
underscore) the code looks up `P_X`, not the claimed `P__X`; an environment
holding only `P__X` is therefore never seen by the code. -/
theorem c5_counterexample :
    getEnvKeyGo ("P_".toList) ("x".toList) ("::".toList) = "P_X".toList ∧
      envKeyClaimedC5 ("P_".toList) ("x".toList) ("::".toList) = "P__X".toList ∧
      getEnvKeyGo ("P_".toList) ("x".toList) ("::".toList) ≠
        envKeyClaimedC5 ("P_".toList) ("x".toList) ("::".toList) ∧
      getEnvGo (fun k => if k = "P__X".toList then "v".toList else [])
        ("P_".toList) ("x".toList) ("::".toList) = [] :=
  ⟨by decide, by decide, by decide, by decide⟩

/-! ## Claim C6: counterexample material -/

/-- C6 counterexample: a field whose directive is `" - "` — not exactly the
literal `"-"` — is nevertheless skipped entirely (the code compares after
`strings.TrimSpace`), refuting the claim's "and only then". -/
theorem c6_counterexample :
    parseStructGo ("::".toList) 0
        (FieldTree.fleaf ("X".toList) (some (" - ".toList)) GoKind.stringK .fnil) [] [] = [] ∧
      (" - ".toList : Str) ≠ "-".toList :=
  ⟨by decide, by decide⟩

/-! ## Claim C7: counterexample material -/

/-- C7 counterexample: a directive starting directly with a colon is not an
empty name override — the whole first clause (colon included) becomes the
option name, so the option does not keep its default name `port` and the
`default` clause is consumed as that name instead of being applied. -/
theorem c7_counterexample :
    (parseTagsGo ("Port".toList) (some (":default: 9, info: x".toList)) GoKind.intK [] 0).map
        (fun o => (o.name, o.defValue, o.value)) =
      some ((":default: 9".toList : Str), ([] : Str), (none : Option GoValue)) ∧
      (":default: 9".toList : Str) ≠ toLowerGo (([] : Str) ++ "Port".toList) :=
  ⟨by decide, by decide⟩

/-! ## Claim C8: counterexample material -/

/-- C8 counterexample: for the registered option name `p::s::b::y` (with
`kvPrefix = "p"`, `setName = "s"`, `kvBucket = "b"`), the translated path
contains a second occurrence of the path prefix `p/s/b/`, so the reverse
translation returns `y` instead of the original name — the round trip
fails. -/
theorem c8_counterexample :
    getKVKeyGo ("p".toList) ("s".toList) ("b".toList) ("::".toList) ("p::s::b::y".toList) =
        "p/s/b/p/s/b/y".toList ∧
      getGCKeyGo ("p".toList) ("s".toList) ("b".toList) ("::".toList)
        ("p/s/b/p/s/b/y".toList) = "y".toList ∧
      ("y".toList : Str) ≠ "p::s::b::y".toList :=
  ⟨by decide, by decide, by decide⟩

/-! ## Claim C6: amended statement -/

theorem parseTagsGo_none_iff (fname t : Str) (k : GoKind) (pre : Str) (now : Nat) :
    parseTagsGo fname (some t) k pre now = none ↔ trimSpaceGo t = ['-'] := by
  unfold parseTagsGo
  dsimp only
  by_cases h1 : trimSpaceGo t = []
  · rw [if_pos h1]
    simp [h1]
  · rw [if_neg h1]
    by_cases h2 : trimSpaceGo t = ['-']
    · rw [if_pos h2]
      simp [h2]
    · rw [if_neg h2]
      simp [h2]

/-- C6 (amended): a field is untracked precisely when its directive, after
whitespace trimming, is the single dash (part one); and an untracked field
is skipped entirely — the registry after walking `field :: rest` equals the
registry after walking `rest` alone, whatever the field's shape, so
(absent a name collision with a tracked field) neither it nor any of its
children can appear in `getAll()` (part two, with the `getAll` consequence
stated for the nested case). -/
theorem c6_untracked_amended :
    (∀ (fname t : Str) (k : GoKind) (pre : Str) (now : Nat),
        parseTagsGo fname (some t) k pre now = none ↔ trimSpaceGo t = ['-']) ∧
      (∀ (delim : Str) (now : Nat) (pre : Str) (reg : Registry) (fname t : Str)
          (rest : FieldTree), trimSpaceGo t = ['-'] →
        (∀ k, parseStructGo delim now (.fleaf fname (some t) k rest) pre reg =
            parseStructGo delim now rest pre reg) ∧
          parseStructGo delim now (.ftime fname (some t) rest) pre reg =
            parseStructGo delim now rest pre reg ∧
          (∀ cs, parseStructGo delim now (.fnested fname (some t) cs rest) pre reg =
              parseStructGo delim now rest pre reg ∧
            getAllGo (parseStructGo delim now (.fnested fname (some t) cs rest) pre reg) =
              getAllGo (parseStructGo delim now rest pre reg))) := by
  refine ⟨parseTagsGo_none_iff, ?_⟩
  intro delim now pre reg fname t rest ht
  refine ⟨?_, ?_, ?_⟩
  · intro k
    have hn := (parseTagsGo_none_iff fname t k pre now).mpr ht
    simp only [parseStructGo, hn]
  · have hn := (parseTagsGo_none_iff fname t .structK pre now).mpr ht
    simp only [parseStructGo, hn]
  · intro cs
    have hn := (parseTagsGo_none_iff fname t .structK pre now).mpr ht
    constructor
    · simp only [parseStructGo, hn]
    · simp only [parseStructGo, hn]

/-- Witness for C6 (amended) at a concrete untracked nested field. -/
theorem c6_witness :
    trimSpaceGo ("-".toList) = ['-'] ∧
      parseStructGo ("::".toList) 0
          (FieldTree.fnested ("Store".toList) (some ("-".toList))
            (FieldTree.fleaf ("Host".toList) none GoKind.stringK .fnil) .fnil) [] [] =
        parseStructGo ("::".toList) 0 FieldTree.fnil [] [] :=
  ⟨by decide,
   ((c6_untracked_amended.2 ("::".toList) 0 [] [] ("Store".toList) ("-".toList) .fnil
      (by decide)).2.2 (FieldTree.fleaf ("Host".toList) none GoKind.stringK .fnil)).1⟩

/-! ## Claim C7: amended statement -/

theorem trimRightGo_cons (c : Char) (rest : Str) :
    trimRightGo (c :: rest) =
      match trimRightGo rest with
      | [] => if isSpaceGo c then [] else [c]
      | r => c :: r := by
  conv_lhs => rw [trimRightGo.eq_def]

theorem trimRightGo_cons_comma (rest : Str) :
    trimRightGo (',' :: rest) = ',' :: trimRightGo rest := by
  rw [trimRightGo_cons]
  cases hr : trimRightGo rest with
  | nil => rfl
  | cons a as => rfl

theorem trimRightGo_idem (s : Str) : trimRightGo (trimRightGo s) = trimRightGo s := by
  induction s with
  | nil => rfl
  | cons c rest ih =>
    cases hr : trimRightGo rest with
    | nil =>
      rw [trimRightGo_cons, hr]
      show trimRightGo (if isSpaceGo c then [] else [c]) = (if isSpaceGo c then [] else [c])
      by_cases hc : isSpaceGo c
      · rw [if_pos hc]
        rfl
      · rw [if_neg hc, trimRightGo_cons]
        exact if_neg hc
    | cons a as =>
      have h3 : trimRightGo (a :: as) = a :: as := by
        conv_lhs => rw [← hr]
        rw [ih, hr]
      rw [trimRightGo_cons, hr]
      rw [trimRightGo_cons, h3]

/-- C7 (amended): a directive that starts directly with a comma is legal
and equivalent to an empty name override followed by attribute clauses —
the option keeps its default (lowercased, prefix-joined field) name and the
attribute clauses after the comma are still applied (part one); applying
attribute clauses never changes the option's name (part two). -/
theorem c7_comma_keeps_name :
    (∀ (fname : Str) (kind : GoKind) (pre : Str) (now : Nat) (rest : Str),
        parseTagsGo fname (some (',' :: rest)) kind pre now =
          some (applyTagOptionsGo
            { name := toLowerGo (pre ++ fname), oType := kind, value := none,
              defValue := [], usage := [], lastSetBy := [], updatedAt := 0 }
            (trimSpaceGo rest) now)) ∧
      (∀ (o : OptionRec) (opts : Str) (now : Nat),
        (applyTagOptionsGo o opts now).name = o.name) := by
  constructor
  · intro fname kind pre now rest
    have htrim : trimSpaceGo (',' :: rest) = ',' :: trimRightGo rest := by
      unfold trimSpaceGo
      rw [trimRightGo_cons_comma]
      rfl
    unfold parseTagsGo
    dsimp only
    rw [htrim]
    rw [if_neg (by simp), if_neg (by simp)]
    have hpt : parseTagGo (',' :: trimRightGo rest) = ([], trimSpaceGo rest) := by
      unfold parseTagGo
      have hidx : indexOfCharGo (',' :: trimRightGo rest) ',' = some 0 := by
        simp [indexOfCharGo, List.findIdx?_cons]
      rw [hidx]
      dsimp only
      rw [List.take_zero, List.drop_one]
      unfold trimSpaceGo
      rw [List.tail_cons, trimRightGo_idem]
    rw [hpt]
    simp
  · exact fun o opts now => applyTagOptions_name opts now o

/-! ## Claim C5: amended statement -/

/-- C5 (amended): the environment stage looks up exactly the key
`UPPER(p + name')` where `p` is `envPrefix` with `"_"` appended unless the
prefix already ends in `"_"`, and `name'` is the option name with
`-`→`_`, keyDelim→`__`, `.`→`_` applied in that order (part one, the key
formula); for a well-formed registry each option is rewritten with setter
`"env"` exactly when the environment holds a non-empty string at that key
(part two); and with an empty prefix the whole stage is a no-op regardless
of the process environment (part three). -/
theorem c5_env_stage_amended :
    (∀ (p n delim : Str),
        getEnvKeyGo p n delim =
          toUpperGo ((if hasSuffixGo p ("_".toList) then p else p ++ "_".toList) ++
            replaceAllGo
              (replaceAllGo (replaceAllGo n ("-".toList) ("_".toList)) delim ("__".toList))
              (".".toList) ("_".toList))) ∧
      (∀ (env : Str → Str) (p delim : Str) (now : Nat) (reg : Registry) (n : Str),
        WFReg reg → p ≠ [] →
        lookupReg (loadFromEnvGo env p delim now reg) n =
          (lookupReg reg n).map (fun o =>
            if env (getEnvKeyGo p n delim) ≠ [] then
              updOpt o (env (getEnvKeyGo p n delim)) ("env".toList) now
            else o)) ∧
      (∀ (env : Str → Str) (delim : Str) (now : Nat) (reg : Registry),
        loadFromEnvGo env [] delim now reg = reg) := by
  refine ⟨fun p n delim => rfl, ?_, loadFromEnv_empty_noop⟩
  intro env p delim now reg n hwf hp
  rw [lookupReg_loadFromEnv env p delim now reg n hwf]
  have hget : getEnvGo env p n delim = env (getEnvKeyGo p n delim) := by
    unfold getEnvGo
    rw [if_neg hp]
  rw [hget]

/-- Witness for C5 (amended) on a concrete registry and environment. -/
theorem c5_witness :
    WFReg [(("port".toList : Str),
        OptionRec.mk ("port".toList) .intK none [] [] [] 0)] ∧
      ("GC".toList : Str) ≠ [] ∧
      lookupReg (loadFromEnvGo
          (fun k => if k = "GC_PORT".toList then "9000".toList else [])
          ("GC".toList) ("::".toList) 5
          [(("port".toList : Str), OptionRec.mk ("port".toList) .intK none [] [] [] 0)])
        ("port".toList) =
        some (OptionRec.mk ("port".toList) .intK (some (.vInt 9000)) [] []
          ("env".toList) 5) := by
  refine ⟨by decide, by decide, ?_⟩
  rw [c5_env_stage_amended.2.1
    (fun k => if k = "GC_PORT".toList then "9000".toList else [])
    ("GC".toList) ("::".toList) 5
    [(("port".toList : Str), OptionRec.mk ("port".toList) .intK none [] [] [] 0)]
    ("port".toList) (by decide) (by decide)]
  decide

/-! ## Claim C1 -/

/-- C1: after `Load` completes, for every option registered from the schema
the precedence order holds.  If the option's flag was explicitly supplied
(it appears in the visited flag set), the value is the coerced flag value
with `lastSetBy = "flag"` — the flag wins over environment and default;
otherwise, if the environment lookup is non-empty, the value is the coerced
environment value with `lastSetBy = "env"`; otherwise the option is exactly
as the schema stage left it, and when a `default` directive was applied its
value is the coerced default text.  Flags left at their default are absent
from the visited set and never override. -/
theorem c1_precedence (delim envPfx : Str) (spec : FieldTree) (env : Str → Str)
    (supplied : List (Str × Str)) (n1 n2 n3 : Nat) (nm : Str) (o0 : OptionRec)
    (hnd : (supplied.map Prod.fst).Nodup)
    (h0 : lookupReg (parseStructGo delim n1 spec [] []) nm = some o0) :
    (∀ v, flagLookup supplied nm = some v →
        lookupReg (loadGo delim envPfx spec env supplied n1 n2 n3) nm =
          some { o0 with value := some (getTypedValue v o0.oType), updatedAt := n3,
                         lastSetBy := "flag".toList }) ∧
      (flagLookup supplied nm = none → getEnvGo env envPfx nm delim ≠ [] →
        lookupReg (loadGo delim envPfx spec env supplied n1 n2 n3) nm =
          some { o0 with
                   value := some (getTypedValue (getEnvGo env envPfx nm delim) o0.oType),
                   updatedAt := n2, lastSetBy := "env".toList }) ∧
      (flagLookup supplied nm = none → getEnvGo env envPfx nm delim = [] →
        lookupReg (loadGo delim envPfx spec env supplied n1 n2 n3) nm = some o0 ∧
          (o0.lastSetBy = "default".toList →
            o0.value = some (getTypedValue o0.defValue o0.oType))) := by
  have hwf0 : WFReg (parseStructGo delim n1 spec [] []) :=
    WFReg_parseStruct delim n1 spec [] []
      ⟨List.nodup_nil, fun e he => absurd he (List.not_mem_nil e)⟩
  have henvlookup :
      lookupReg (loadFromEnvGo env envPfx delim n2 (parseStructGo delim n1 spec [] [])) nm =
        some (if getEnvGo env envPfx nm delim ≠ [] then
          updOpt o0 (getEnvGo env envPfx nm delim) ("env".toList) n2 else o0) := by
    rw [lookupReg_loadFromEnv env envPfx delim n2 _ nm hwf0, h0]
    rfl
  have hdp : DefaultP o0 := by
    have hrdp := RegDefaultP_parseStruct delim n1 spec [] []
      (fun e he => absurd he (List.not_mem_nil e))
    rcases lookupReg_mem _ _ _ h0 with ⟨e, he, heq⟩
    exact heq ▸ hrdp e he
  refine ⟨?_, ?_, ?_⟩
  · intro v hv
    unfold loadGo loadFromFlagsGo
    rw [lookupReg_flagFold_found n3 supplied _ nm v hnd hv, henvlookup]
    by_cases hc : getEnvGo env envPfx nm delim ≠ []
    · rw [if_pos hc]
      cases o0
      simp [updOpt]
    · rw [if_neg hc]
      cases o0
      simp [updOpt]
  · intro hfl henv
    unfold loadGo loadFromFlagsGo
    have hno : ∀ p ∈ supplied, p.1 ≠ nm := by
      intro p hp hc
      unfold flagLookup at hfl
      rw [Option.map_eq_none'] at hfl
      have := List.find?_eq_none.mp hfl p hp
      simp [hc] at this
    rw [lookupReg_flagFold_not_mem n3 supplied _ nm hno, henvlookup, if_pos henv]
    cases o0
    simp [updOpt]
  · intro hfl henv
    refine ⟨?_, hdp⟩
    unfold loadGo loadFromFlagsGo
    have hno : ∀ p ∈ supplied, p.1 ≠ nm := by
      intro p hp hc
      unfold flagLookup at hfl
      rw [Option.map_eq_none'] at hfl
      have := List.find?_eq_none.mp hfl p hp
      simp [hc] at this
    rw [lookupReg_flagFold_not_mem n3 supplied _ nm hno, henvlookup,
      if_neg (by simp [henv])]

/-- Witness for C1: a concrete one-field schema with a default, an
environment value and an explicitly supplied flag; the flag wins. -/
theorem c1_witness :
    ((([(("port".toList : Str), ("7777".toList : Str))]).map Prod.fst).Nodup) ∧
      lookupReg (parseStructGo ("::".toList) 1
          (FieldTree.fleaf ("Port".toList) (some ("port, default: 8000".toList))
            GoKind.intK .fnil) [] []) ("port".toList) =
        some (OptionRec.mk ("port".toList) .intK (some (.vInt 8000)) ("8000".toList) []
          ("default".toList) 1) ∧
      lookupReg (loadGo ("::".toList) ("GC".toList)
          (FieldTree.fleaf ("Port".toList) (some ("port, default: 8000".toList))
            GoKind.intK .fnil)
          (fun k => if k = "GC_PORT".toList then "9000".toList else [])
          [(("port".toList : Str), ("7777".toList : Str))] 1 2 3) ("port".toList) =
        some (OptionRec.mk ("port".toList) .intK (some (.vInt 7777)) ("8000".toList) []
          ("flag".toList) 3) :=
  ⟨by decide, by decide,
   (c1_precedence ("::".toList) ("GC".toList)
      (FieldTree.fleaf ("Port".toList) (some ("port, default: 8000".toList))
        GoKind.intK .fnil)
      (fun k => if k = "GC_PORT".toList then "9000".toList else [])
      [(("port".toList : Str), ("7777".toList : Str))] 1 2 3 ("port".toList)
      (OptionRec.mk ("port".toList) .intK (some (.vInt 8000)) ("8000".toList) []
        ("default".toList) 1)
      (by decide) (by decide)).1 ("7777".toList) (by decide)⟩

/-! ## Claim C8: amended statement -/

theorem startsWith_append_self (p s : Str) : startsWith (p ++ s) p = true := by
  induction p with
  | nil => cases s <;> rfl
  | cons a ps ih => simp [startsWith, ih]

theorem startsWith_append_drop (p : Str) :
    ∀ s, startsWith s p = true → p ++ s.drop p.length = s := by
  induction p with
  | nil => intro s _; simp
  | cons a ps ih =>
    intro s h
    cases s with
    | nil => simp [startsWith] at h
    | cons c cs =>
      simp only [startsWith, Bool.and_eq_true, beq_iff_eq] at h
      obtain ⟨hca, h2⟩ := h
      simp only [List.cons_append, List.length_cons, List.drop_succ_cons]
      rw [ih cs h2, hca]

theorem splitAfterAuxF_no_occ (sep : Str) :
    ∀ (fuel : Nat) (s acc : Str), s.length ≤ fuel → containsSubGo s sep = false →
      splitAfterAuxF sep fuel s acc = [acc.reverse ++ s] := by
  intro fuel
  induction fuel with
  | zero =>
    intro s acc hlen _
    cases s with
    | nil => simp [splitAfterAuxF]
    | cons c cs => simp at hlen
  | succ f ih =>
    intro s acc hlen hno
    cases s with
    | nil => simp [splitAfterAuxF]
    | cons c cs =>
      unfold containsSubGo at hno
      rw [Bool.or_eq_false_iff] at hno
      unfold splitAfterAuxF
      rw [if_neg (by simp [hno.1])]
      rw [ih cs (c :: acc) (by simpa using Nat.le_of_succ_le_succ hlen) hno.2]
      simp

theorem splitAfterAuxF_succ_cons (sep : Str) (fuel : Nat) (c : Char) (rest acc : Str) :
    splitAfterAuxF sep (fuel + 1) (c :: rest) acc =
      if !sep.isEmpty && startsWith (c :: rest) sep then
        (acc.reverse ++ sep) :: splitAfterAuxF sep fuel ((c :: rest).drop sep.length) []
      else splitAfterAuxF sep fuel rest (c :: acc) := rfl

theorem splitAfterGo_once (sep s : Str) (hsep : sep ≠ [])
    (hno : containsSubGo s sep = false) :
    splitAfterGo (sep ++ s) sep = [sep, s] := by
  cases sep with
  | nil => exact absurd rfl hsep
  | cons p ps =>
    show splitAfterAuxF (p :: ps) ((p :: ps) ++ s).length ((p :: ps) ++ s) [] = _
    rw [List.cons_append, List.length_cons, splitAfterAuxF_succ_cons]
    rw [if_pos (by
      simp only [List.isEmpty_cons, Bool.not_false, Bool.true_and]
      exact startsWith_append_self (p :: ps) s)]
    have hdrop : (p :: (ps ++ s)).drop (p :: ps).length = s := by
      rw [← List.cons_append]
      exact List.drop_left (p :: ps) s
    rw [hdrop]
    rw [splitAfterAuxF_no_occ (p :: ps) (ps ++ s).length s [] (by simp) hno]
    simp

theorem replaceAllF_irrel :
    ∀ (f1 : Nat) (s old new : Str) (f2 : Nat), s.length ≤ f1 → s.length ≤ f2 →
      replaceAllF f1 s old new = replaceAllF f2 s old new := by
  intro f1
  induction f1 with
  | zero =>
    intro s old new f2 h1 _
    cases s with
    | nil => cases old <;> simp only [replaceAllF]
    | cons c cs => simp at h1
  | succ f ih =>
    intro s old new f2 h1 h2
    cases s with
    | nil => cases old <;> simp only [replaceAllF]
    | cons c cs =>
      cases old with
      | nil => simp only [replaceAllF]
      | cons o os =>
        cases f2 with
        | zero => simp at h2
        | succ g =>
          simp only [replaceAllF]
          by_cases hsw : startsWith (c :: cs) (o :: os) = true
          · rw [if_pos hsw, if_pos hsw]
            congr 1
            have hd : ((c :: cs).drop (o :: os).length).length ≤ cs.length := by
              simp [List.length_drop]
            exact ih _ (o :: os) new g
              (le_trans hd (Nat.le_of_succ_le_succ h1))
              (le_trans hd (Nat.le_of_succ_le_succ h2))
          · rw [if_neg hsw, if_neg hsw]
            congr 1
            exact ih cs (o :: os) new g (Nat.le_of_succ_le_succ h1)
              (Nat.le_of_succ_le_succ h2)

theorem replaceAllGo_cons_pos (c : Char) (cs : Str) (o : Char) (os new : Str)
    (hsw : startsWith (c :: cs) (o :: os) = true) :
    replaceAllGo (c :: cs) (o :: os) new =
      new ++ replaceAllGo ((c :: cs).drop (o :: os).length) (o :: os) new := by
  unfold replaceAllGo
  show replaceAllF (cs.length + 1) (c :: cs) (o :: os) new = _
  simp only [replaceAllF]
  rw [if_pos hsw]
  congr 1
  apply replaceAllF_irrel
  · simp [List.length_drop]
  · exact le_rfl

theorem replaceAllGo_cons_neg (c : Char) (cs : Str) (o : Char) (os new : Str)
    (hsw : ¬ startsWith (c :: cs) (o :: os) = true) :
    replaceAllGo (c :: cs) (o :: os) new = c :: replaceAllGo cs (o :: os) new := by
  unfold replaceAllGo
  show replaceAllF (cs.length + 1) (c :: cs) (o :: os) new = _
  simp only [replaceAllF]
  rw [if_neg hsw]

theorem replaceAll_slash_roundtrip :
    ∀ (k : Nat) (n : Str), n.length ≤ k → ∀ (d : Str), d ≠ [] → '/' ∉ n →
      replaceAllGo (replaceAllGo n d ['/']) ['/'] d = n := by
  intro k
  induction k with
  | zero =>
    intro n hlen d hd _
    cases n with
    | nil =>
      cases d with
      | nil => exact absurd rfl hd
      | cons o os => rfl
    | cons c cs => simp at hlen
  | succ k ih =>
    intro n hlen d hd hn
    cases n with
    | nil =>
      cases d with
      | nil => exact absurd rfl hd
      | cons o os => rfl
    | cons c cs =>
      cases d with
      | nil => exact absurd rfl hd
      | cons o os =>
        rw [List.mem_cons, not_or] at hn
        by_cases hsw : startsWith (c :: cs) (o :: os) = true
        · rw [replaceAllGo_cons_pos c cs o os ['/'] hsw]
          show replaceAllGo ('/' :: replaceAllGo ((c :: cs).drop (o :: os).length)
            (o :: os) ['/']) ['/'] (o :: os) = c :: cs
          rw [replaceAllGo_cons_pos '/' _ '/' [] (o :: os) (by simp [startsWith])]
          show (o :: os) ++ replaceAllGo (replaceAllGo ((c :: cs).drop (o :: os).length)
            (o :: os) ['/']) ['/'] (o :: os) = c :: cs
          rw [ih ((c :: cs).drop (o :: os).length)
            (by
              simp only [List.length_drop, List.length_cons] at hlen ⊢
              omega) (o :: os) hd
            (fun hmem => (by
              have hsub := List.drop_subset (o :: os).length (c :: cs) hmem
              rcases List.mem_cons.mp hsub with h | h
              · exact hn.1 h
              · exact hn.2 h))]
          exact startsWith_append_drop (o :: os) (c :: cs) hsw
        · rw [replaceAllGo_cons_neg c cs o os ['/'] hsw]
          show replaceAllGo (c :: replaceAllGo cs (o :: os) ['/']) ['/'] (o :: os) = c :: cs
          rw [replaceAllGo_cons_neg c _ '/' [] (o :: os)
            (by
              simp only [startsWith, Bool.and_eq_true, beq_iff_eq, not_and]
              intro h
              exact absurd h.symm hn.1)]
          rw [ih cs (Nat.le_of_succ_le_succ hlen) (o :: os) hd hn.2]

/-- C8 (amended): the remote path built for a registered option name is
`kvPrefix + "/" + setName + "/" + kvBucket + "/" + name` with every
keyDelim occurrence replaced by `/`; and provided keyDelim is non-empty,
the name contains no `/` of its own, and the path prefix does not reoccur
inside the translated name, the reverse translation of the built path
yields the original logical name again (so a single-key watch writes the
received value back under that name). -/
theorem c8_kv_roundtrip_amended (kvPfx setName kvBucket keyDelim nm : Str)
    (hd : keyDelim ≠ []) (hn : '/' ∉ nm)
    (hocc : containsSubGo (replaceAllGo nm keyDelim ("/".toList))
        (kvPfx ++ "/".toList ++ setName ++ "/".toList ++ kvBucket ++ "/".toList) = false) :
    getKVKeyGo kvPfx setName kvBucket keyDelim nm =
        (kvPfx ++ "/".toList ++ setName ++ "/".toList ++ kvBucket ++ "/".toList) ++
          replaceAllGo nm keyDelim ("/".toList) ∧
      getGCKeyGo kvPfx setName kvBucket keyDelim
        (getKVKeyGo kvPfx setName kvBucket keyDelim nm) = nm := by
  have hpat : kvPfx ++ "/".toList ++ setName ++ "/".toList ++ kvBucket ++ "/".toList ≠ [] := by
    intro h
    simp [List.append_eq_nil] at h
  have hkey : getKVKeyGo kvPfx setName kvBucket keyDelim nm =
      (kvPfx ++ "/".toList ++ setName ++ "/".toList ++ kvBucket ++ "/".toList) ++
        replaceAllGo nm keyDelim ("/".toList) := by
    unfold getKVKeyGo
    simp [List.append_assoc]
  refine ⟨hkey, ?_⟩
  rw [hkey]
  unfold getGCKeyGo
  dsimp only
  have hassoc :
      kvPfx ++ "/".toList ++ setName ++ "/".toList ++ kvBucket ++ "/".toList ++
          replaceAllGo nm keyDelim ("/".toList) =
        (kvPfx ++ "/".toList ++ setName ++ "/".toList ++ kvBucket ++ "/".toList) ++
          replaceAllGo nm keyDelim ("/".toList) := by
    simp [List.append_assoc]
  rw [hassoc, splitAfterGo_once _ _ hpat hocc]
  show replaceAllGo (replaceAllGo nm keyDelim ("/".toList)) ("/".toList) keyDelim = nm
  exact replaceAll_slash_roundtrip nm.length nm le_rfl keyDelim hd hn

/-- Witness for C8 (amended) on the realistic option name `store::host`. -/
theorem c8_witness :
    ("::".toList : Str) ≠ [] ∧ '/' ∉ ("store::host".toList : Str) ∧
      containsSubGo (replaceAllGo ("store::host".toList) ("::".toList) ("/".toList))
        ("settings".toList ++ "/".toList ++ "gcv2".toList ++ "/".toList ++
          "v1".toList ++ "/".toList) = false ∧
      getGCKeyGo ("settings".toList) ("gcv2".toList) ("v1".toList) ("::".toList)
        (getKVKeyGo ("settings".toList) ("gcv2".toList) ("v1".toList) ("::".toList)
          ("store::host".toList)) = "store::host".toList :=
  ⟨by decide, by decide, by decide,
   (c8_kv_roundtrip_amended ("settings".toList) ("gcv2".toList) ("v1".toList)
     ("::".toList) ("store::host".toList) (by decide) (by decide) (by decide)).2⟩

end Getconf
